import Mathlib

/-!
Verification of the core extraction and naming logic of TR_PDF_Rename
(src/parser.rs).  Rust strings are embedded as `List Char`; byte-level
operations (`str::len`, `String::truncate`) are modelled through the UTF-8
size of each character.  Fallible code paths (including the possible panic
of `String::truncate` inside `build_filename`) are modelled with `Option`.
-/

/-- Convenience: the character list underlying a string literal. -/
def str (s : String) : List Char := s.data

/-- The UTF-8 byte length of a Rust string (`str::len`). -/
def byteLen (s : List Char) : Nat := (s.map Char.utf8Size).sum

/-- Rust `char::is_control`: the Unicode Cc category. -/
def isRustControl (c : Char) : Bool :=
  c.toNat < 0x20 || (0x7F ≤ c.toNat && c.toNat ≤ 0x9F)

/-- The four bidirectional-override / directional-mark characters removed by
`clean_name` (parser.rs lines 107-113). -/
def isBidiChar (c : Char) : Bool :=
  c = '‮' || c = '‭' || c = '‎' || c = '‏'

/-- The character class of `DANGEROUS_CHARS_RE` (parser.rs line 11). -/
def isDangerousChar (c : Char) : Bool :=
  c = '<' || c = '>' || c = ':' || c = '\"' || c = '|' || c = '?' || c = '*' ||
  c = '\\' || c = '.' || c = '/' || c = '[' || c = ']' || c = '(' || c = ')'

/-- Unicode White_Space, the meaning of `\s` in the Rust regex crate. -/
def isRustWs (c : Char) : Bool :=
  c = ' ' || c = '\t' || c = '\n' || c.toNat = 0x0B || c.toNat = 0x0C ||
  c = '\r' || c.toNat = 0x85 || c.toNat = 0xA0 || c.toNat = 0x1680 ||
  (0x2000 ≤ c.toNat && c.toNat ≤ 0x200A) || c.toNat = 0x2028 ||
  c.toNat = 0x2029 || c.toNat = 0x202F || c.toNat = 0x205F || c.toNat = 0x3000

/-- The character class of `WHITESPACE_RE`, `[\s,]` (parser.rs line 14). -/
def isWsComma (c : Char) : Bool := isRustWs c || c = ','

/-- Is the character an underscore (the separator). -/
def isUnd (c : Char) : Bool := c == '_'

/-- Stage 1 of `clean_name`: the `retain` call removing control characters and
bidirectional overrides (parser.rs lines 107-113). -/
def stripControl (s : List Char) : List Char :=
  s.filter (fun c => !(isRustControl c || isBidiChar c))

/-- Stage 2 of `clean_name`: `DANGEROUS_CHARS_RE.replace_all(_, "_")`.  The
class matches single characters, so each dangerous character becomes one
underscore. -/
def mapDanger (s : List Char) : List Char :=
  s.map (fun c => if isDangerousChar c then '_' else c)

/-- Replace every maximal run of characters satisfying `p` by a single
underscore (the effect of `replace_all` with the pattern `class+`).  The
Boolean flag records whether we are currently inside a run. -/
def replRunsAux (p : Char → Bool) : Bool → List Char → List Char
  | _, [] => []
  | inRun, c :: cs =>
    if p c then
      if inRun then replRunsAux p true cs else '_' :: replRunsAux p true cs
    else c :: replRunsAux p false cs

/-- `WHITESPACE_RE.replace_all(_, "_")`: runs of `[\s,]` become one
underscore (parser.rs line 117). -/
def squashWs (s : List Char) : List Char := replRunsAux isWsComma false s

/-- `MULTIPLE_UNDERSCORES_RE.replace_all(_, "_")`: runs of `_` become one
underscore (parser.rs line 118). -/
def squashUnd (s : List Char) : List Char := replRunsAux isUnd false s

/-- Rust `str::trim_matches('_')`: drop leading and trailing underscores
(parser.rs line 119). -/
def trimUnd (s : List Char) : List Char :=
  ((s.dropWhile isUnd).reverse.dropWhile isUnd).reverse

/-- `clean_name` (parser.rs lines 98-120): the shared sanitization
primitive. -/
def clean_name (name : List Char) : List Char :=
  if byteLen name > 500 then str "Invalid_Asset_Name"
  else trimUnd (squashUnd (squashWs (mapDanger (stripControl name))))

/-- A character that survives sanitization: not control, not a bidi override,
not in the dangerous class, not whitespace or comma. -/
def goodChar (c : Char) : Bool :=
  !(isRustControl c) && !(isBidiChar c) && !(isDangerousChar c) && !(isWsComma c)

/-- No two adjacent underscores. -/
def noDub : List Char → Bool
  | a :: b :: t => !(a == '_' && b == '_') && noDub (b :: t)
  | _ => true

/-- The full invariant of sanitized name parts. -/
def partOk (s : List Char) : Prop :=
  (∀ c ∈ s, goodChar c = true) ∧ noDub s = true ∧
  s.head? ≠ some '_' ∧ s.getLast? ≠ some '_'

-- ### Basic lemmas about the sanitizer stages

theorem byteLen_nil : byteLen [] = 0 := rfl

theorem byteLen_cons (c : Char) (s : List Char) :
    byteLen (c :: s) = c.utf8Size + byteLen s := by
  simp [byteLen]

theorem mem_replRunsAux {p : Char → Bool} {s : List Char} {c : Char} :
    ∀ b, c ∈ replRunsAux p b s → c = '_' ∨ (c ∈ s ∧ p c = false) := by
  induction s with
  | nil => intro b h; simp [replRunsAux] at h
  | cons a t ih =>
    intro b h
    by_cases hp : p a
    · cases b with
      | true =>
        simp only [replRunsAux, hp, if_true] at h
        rcases ih true h with h' | h'
        · exact Or.inl h'
        · exact Or.inr ⟨List.mem_cons_of_mem _ h'.1, h'.2⟩
      | false =>
        simp only [replRunsAux, hp, if_true] at h
        rcases List.mem_cons.mp h with h | h
        · exact Or.inl h
        · rcases ih true h with h' | h'
          · exact Or.inl h'
          · exact Or.inr ⟨List.mem_cons_of_mem _ h'.1, h'.2⟩
    · rw [show replRunsAux p b (a :: t) = a :: replRunsAux p false t by
        simp [replRunsAux, hp]] at h
      rcases List.mem_cons.mp h with h | h
      · subst h
        exact Or.inr ⟨List.mem_cons_self _ _, by simpa using hp⟩
      · rcases ih false h with h' | h'
        · exact Or.inl h'
        · exact Or.inr ⟨List.mem_cons_of_mem _ h'.1, h'.2⟩

theorem byteLen_replRunsAux_le (p : Char → Bool) (s : List Char) :
    ∀ b, byteLen (replRunsAux p b s) ≤ byteLen s := by
  induction s with
  | nil => intro b; simp [replRunsAux]
  | cons a t ih =>
    intro b
    have hpos := Char.utf8Size_pos a
    have h_ : Char.utf8Size '_' = 1 := by decide
    by_cases hp : p a
    · cases b with
      | true =>
        simp only [replRunsAux, hp, if_true]
        have h1 := ih true
        rw [byteLen_cons]
        omega
      | false =>
        simp only [replRunsAux, hp, if_true, Bool.false_eq_true, if_false]
        have h1 := ih true
        rw [byteLen_cons, byteLen_cons]
        omega
    · rw [show replRunsAux p b (a :: t) = a :: replRunsAux p false t by
        simp [replRunsAux, hp]]
      have h1 := ih false
      rw [byteLen_cons, byteLen_cons]
      omega

theorem byteLen_filter_le (q : Char → Bool) (s : List Char) :
    byteLen (s.filter q) ≤ byteLen s := by
  induction s with
  | nil => simp [byteLen]
  | cons a t ih =>
    by_cases hq : q a
    · simp only [List.filter_cons, hq, if_true]
      rw [byteLen_cons, byteLen_cons]
      omega
    · simp only [List.filter_cons, hq, Bool.false_eq_true, if_false]
      rw [byteLen_cons]
      have := Char.utf8Size_pos a
      omega

theorem byteLen_mapDanger_le (s : List Char) : byteLen (mapDanger s) ≤ byteLen s := by
  induction s with
  | nil => simp [mapDanger, byteLen]
  | cons a t ih =>
    simp only [mapDanger, List.map_cons]
    rw [byteLen_cons, byteLen_cons]
    have hpos := Char.utf8Size_pos a
    by_cases hd : isDangerousChar a
    · simp only [hd, if_true]
      have h_ : Char.utf8Size '_' = 1 := by decide
      simp only [mapDanger] at ih
      omega
    · simp only [hd, Bool.false_eq_true, if_false]
      simp only [mapDanger] at ih
      omega

theorem byteLen_dropWhile_le (q : Char → Bool) (s : List Char) :
    byteLen (s.dropWhile q) ≤ byteLen s := by
  induction s with
  | nil => simp [byteLen]
  | cons a t ih =>
    by_cases hq : q a
    · simp only [List.dropWhile_cons, hq, if_true]
      rw [byteLen_cons]
      have := Char.utf8Size_pos a
      omega
    · simp [List.dropWhile_cons, hq]

theorem byteLen_reverse (s : List Char) : byteLen s.reverse = byteLen s := by
  simp [byteLen, List.map_reverse, List.sum_reverse]

theorem byteLen_trimUnd_le (s : List Char) : byteLen (trimUnd s) ≤ byteLen s := by
  unfold trimUnd
  calc byteLen ((s.dropWhile isUnd).reverse.dropWhile isUnd).reverse
      = byteLen ((s.dropWhile isUnd).reverse.dropWhile isUnd) := byteLen_reverse _
    _ ≤ byteLen (s.dropWhile isUnd).reverse := byteLen_dropWhile_le _ _
    _ = byteLen (s.dropWhile isUnd) := byteLen_reverse _
    _ ≤ byteLen s := byteLen_dropWhile_le _ _

theorem byteLen_clean_name_le (s : List Char) (h : byteLen s ≤ 500) :
    byteLen (clean_name s) ≤ byteLen s := by
  unfold clean_name
  rw [if_neg (by omega)]
  calc byteLen (trimUnd (squashUnd (squashWs (mapDanger (stripControl s)))))
      ≤ byteLen (squashUnd (squashWs (mapDanger (stripControl s)))) := byteLen_trimUnd_le _
    _ ≤ byteLen (squashWs (mapDanger (stripControl s))) := byteLen_replRunsAux_le _ _ _
    _ ≤ byteLen (mapDanger (stripControl s)) := byteLen_replRunsAux_le _ _ _
    _ ≤ byteLen (stripControl s) := byteLen_mapDanger_le _
    _ ≤ byteLen s := byteLen_filter_le _ _

-- ### Invariants of the sanitizer output

theorem head?_dropWhile_not (p : Char → Bool) (l : List Char) {a : Char}
    (h : (l.dropWhile p).head? = some a) : p a = false := by
  induction l with
  | nil => simp at h
  | cons x t ih =>
    by_cases hp : p x
    · rw [List.dropWhile_cons, if_pos hp] at h
      exact ih h
    · rw [List.dropWhile_cons, if_neg hp] at h
      simp only [List.head?_cons, Option.some.injEq] at h
      subst h
      simpa using hp

/-- The relation underlying `noDub`. -/
def undR (a b : Char) : Prop := ¬(a = '_' ∧ b = '_')

theorem noDub_iff_chain' (l : List Char) :
    noDub l = true ↔ List.Chain' undR l := by
  induction l with
  | nil => simp [noDub]
  | cons a t ih =>
    cases t with
    | nil => simp [noDub, undR]
    | cons b u =>
      rw [List.chain'_cons, ← ih]
      simp only [noDub, Bool.and_eq_true, Bool.not_eq_true']
      constructor
      · rintro ⟨h1, h2⟩
        refine ⟨?_, h2⟩
        intro ⟨ha, hb⟩
        subst ha; subst hb
        simp at h1
      · rintro ⟨h1, h2⟩
        refine ⟨?_, h2⟩
        by_contra hc
        simp only [Bool.not_eq_false, Bool.and_eq_true, beq_iff_eq] at hc
        exact h1 ⟨hc.1, hc.2⟩

theorem undR_flip : flip undR = undR := by
  funext a b
  simp only [flip, undR, eq_iff_iff]
  tauto

theorem noDub_of_suffix {l t : List Char} (h : noDub l = true) (hs : t <:+ l) :
    noDub t = true :=
  (noDub_iff_chain' t).mpr (((noDub_iff_chain' l).mp h).suffix hs)

theorem noDub_reverse (l : List Char) : noDub l.reverse = noDub l := by
  rw [Bool.eq_iff_iff, noDub_iff_chain', noDub_iff_chain', List.chain'_reverse, undR_flip]

theorem noDub_cons_iff (a : Char) (t : List Char) :
    noDub (a :: t) = true ↔ noDub t = true ∧ (a = '_' → t.head? ≠ some '_') := by
  cases t with
  | nil => simp [noDub]
  | cons b u =>
    simp only [noDub, Bool.and_eq_true, Bool.not_eq_true', Bool.and_eq_false_iff,
      beq_eq_false_iff_ne, ne_eq, List.head?_cons, Option.some.injEq]
    tauto

/-- Characters of `replRunsAux isUnd`: drops or copies, so membership in the
output implies membership in the input or being an underscore.  Structure of
the squashed-underscore output. -/
theorem replUnd_noDub : ∀ (s : List Char),
    (noDub (replRunsAux isUnd false s) = true ∧
      noDub (replRunsAux isUnd true s) = true) ∧
    (replRunsAux isUnd true s).head? ≠ some '_' := by
  intro s
  induction s with
  | nil => simp [replRunsAux, noDub]
  | cons a t ih =>
    by_cases hp : isUnd a
    · have ha : a = '_' := by simpa [isUnd] using hp
      subst ha
      have hfalse : replRunsAux isUnd false ('_' :: t) = '_' :: replRunsAux isUnd true t := by
        simp [replRunsAux, hp]
      have htrue : replRunsAux isUnd true ('_' :: t) = replRunsAux isUnd true t := by
        simp [replRunsAux, hp]
      refine ⟨⟨?_, ?_⟩, ?_⟩
      · rw [hfalse, noDub_cons_iff]
        exact ⟨ih.1.2, fun _ => ih.2⟩
      · rw [htrue]; exact ih.1.2
      · rw [htrue]; exact ih.2
    · have hgood : ¬ a = '_' := by simpa [isUnd] using hp
      have hrw : ∀ b, replRunsAux isUnd b (a :: t) = a :: replRunsAux isUnd false t := by
        intro b; simp [replRunsAux, hp]
      refine ⟨⟨?_, ?_⟩, ?_⟩
      · rw [hrw, noDub_cons_iff]
        exact ⟨ih.1.1, fun h => absurd h hgood⟩
      · rw [hrw, noDub_cons_iff]
        exact ⟨ih.1.1, fun h => absurd h hgood⟩
      · rw [hrw]
        simpa using hgood

theorem mem_trimUnd {s : List Char} {c : Char} (h : c ∈ trimUnd s) : c ∈ s := by
  unfold trimUnd at h
  rw [List.mem_reverse] at h
  have h1 := ((List.dropWhile_sublist isUnd).mem h :
    c ∈ (s.dropWhile isUnd).reverse)
  rw [List.mem_reverse] at h1
  exact (List.dropWhile_sublist isUnd).mem h1

theorem noDub_trimUnd {s : List Char} (h : noDub s = true) : noDub (trimUnd s) = true := by
  unfold trimUnd
  rw [noDub_reverse]
  refine noDub_of_suffix ?_ (List.dropWhile_suffix isUnd)
  rw [noDub_reverse]
  exact noDub_of_suffix h (List.dropWhile_suffix isUnd)

theorem head?_trimUnd (s : List Char) : (trimUnd s).head? ≠ some '_' := by
  unfold trimUnd
  rw [List.head?_reverse]
  intro h
  -- the last element of the dropWhile result is the last of the reversed list,
  -- i.e. the head of the inner dropWhile result, which cannot be an underscore
  have hne : (s.dropWhile isUnd).reverse.dropWhile isUnd ≠ [] := by
    intro he; rw [he] at h; simp at h
  rcases List.dropWhile_suffix (l := (s.dropWhile isUnd).reverse) isUnd with ⟨t, ht⟩
  have hx : (s.dropWhile isUnd).reverse.getLast? = some '_' := by
    rw [← ht, List.getLast?_append, h]
    rfl
  rw [List.getLast?_reverse] at hx
  have := head?_dropWhile_not isUnd s hx
  simp [isUnd] at this

theorem getLast?_trimUnd (s : List Char) : (trimUnd s).getLast? ≠ some '_' := by
  unfold trimUnd
  rw [List.getLast?_reverse]
  intro h
  have := head?_dropWhile_not isUnd (s.dropWhile isUnd).reverse h
  simp [isUnd] at this

theorem goodChar_und : goodChar '_' = true := by decide

theorem goodChar_of_mem_clean {s : List Char} {c : Char} (h : c ∈ clean_name s) :
    goodChar c = true := by
  unfold clean_name at h
  by_cases hlen : byteLen s > 500
  · rw [if_pos hlen] at h
    fin_cases h <;> decide
  · rw [if_neg hlen] at h
    have h1 := mem_trimUnd h
    rcases mem_replRunsAux false h1 with h2 | ⟨h2, _⟩
    · subst h2; exact goodChar_und
    · rcases mem_replRunsAux false h2 with h3 | ⟨h3, hws⟩
      · subst h3; exact goodChar_und
      · rcases List.mem_map.mp h3 with ⟨a, ha, hfa⟩
        by_cases hd : isDangerousChar a
        · rw [if_pos hd] at hfa
          subst hfa; exact goodChar_und
        · rw [if_neg hd] at hfa
          subst hfa
          have hkeep := List.of_mem_filter ha
          simp only [Bool.not_eq_true', Bool.or_eq_false_iff] at hkeep
          simp only [goodChar, Bool.and_eq_true, Bool.not_eq_true']
          exact ⟨⟨⟨hkeep.1, hkeep.2⟩, by simpa using hd⟩, hws⟩

theorem partOk_clean_name (s : List Char) : partOk (clean_name s) := by
  refine ⟨fun c hc => goodChar_of_mem_clean hc, ?_, ?_, ?_⟩
  · unfold clean_name
    by_cases hlen : byteLen s > 500
    · rw [if_pos hlen]; decide
    · rw [if_neg hlen]
      exact noDub_trimUnd (replUnd_noDub _).1.1
  · unfold clean_name
    by_cases hlen : byteLen s > 500
    · rw [if_pos hlen]; decide
    · rw [if_neg hlen]
      exact head?_trimUnd _
  · unfold clean_name
    by_cases hlen : byteLen s > 500
    · rw [if_pos hlen]; decide
    · rw [if_neg hlen]
      exact getLast?_trimUnd _

-- ### Identity of the sanitizer on already-sanitized input

theorem replRunsAux_id_of_none {p : Char → Bool} {s : List Char}
    (h : ∀ c ∈ s, p c = false) : replRunsAux p false s = s := by
  induction s with
  | nil => rfl
  | cons a t ih =>
    have ha : p a = false := h a (List.mem_cons_self _ _)
    rw [show replRunsAux p false (a :: t) = a :: replRunsAux p false t by
      simp [replRunsAux, ha]]
    rw [ih fun c hc => h c (List.mem_cons_of_mem _ hc)]

theorem replUnd_id {s : List Char} (h : noDub s = true) :
    replRunsAux isUnd false s = s ∧
    (s.head? ≠ some '_' → replRunsAux isUnd true s = s) := by
  induction s with
  | nil => exact ⟨rfl, fun _ => rfl⟩
  | cons a t ih =>
    rw [noDub_cons_iff] at h
    by_cases hp : isUnd a
    · have ha : a = '_' := by simpa [isUnd] using hp
      subst ha
      have hh : t.head? ≠ some '_' := h.2 rfl
      have ht := (ih h.1).2 hh
      constructor
      · simp only [replRunsAux, hp, if_true, Bool.false_eq_true, if_false, ht]
      · intro hcontra
        simp at hcontra
    · have ht := (ih h.1).1
      constructor
      · simp only [replRunsAux, hp, Bool.false_eq_true, if_false, ht]
      · intro _
        simp only [replRunsAux, hp, Bool.false_eq_true, if_false, ht]

theorem dropWhile_id_of_head {s : List Char} (h : s.head? ≠ some '_') :
    s.dropWhile isUnd = s := by
  cases s with
  | nil => rfl
  | cons a t =>
    have ha : ¬ isUnd a := by
      simp only [List.head?_cons, ne_eq, Option.some.injEq] at h
      simpa [isUnd] using h
    rw [List.dropWhile_cons, if_neg (by simpa using ha)]

theorem trimUnd_id {s : List Char} (h1 : s.head? ≠ some '_')
    (h2 : s.getLast? ≠ some '_') : trimUnd s = s := by
  unfold trimUnd
  rw [dropWhile_id_of_head h1]
  rw [dropWhile_id_of_head (by rw [List.head?_reverse]; exact h2)]
  exact List.reverse_reverse s

theorem clean_name_id_of_partOk {s : List Char} (h : partOk s)
    (hlen : byteLen s ≤ 500) : clean_name s = s := by
  obtain ⟨hch, hnd, hhd, hlast⟩ := h
  unfold clean_name
  rw [if_neg (by omega)]
  have h1 : stripControl s = s := by
    apply List.filter_eq_self.mpr
    intro a ha
    have := hch a ha
    simp only [goodChar, Bool.and_eq_true, Bool.not_eq_true'] at this
    simp [this.1.1.1, this.1.1.2]
  have h2 : mapDanger s = s := by
    unfold mapDanger
    have : ∀ a ∈ s, (if isDangerousChar a then '_' else a) = id a := by
      intro a ha
      have := hch a ha
      simp only [goodChar, Bool.and_eq_true, Bool.not_eq_true'] at this
      simp [this.1.2]
    rw [List.map_congr_left this, List.map_id]
  have h3 : squashWs s = s := replRunsAux_id_of_none (by
    intro a ha
    have := hch a ha
    simp only [goodChar, Bool.and_eq_true, Bool.not_eq_true'] at this
    exact this.2)
  have h4 : squashUnd s = s := (replUnd_id hnd).1
  rw [h1, h2, h3, h4]
  exact trimUnd_id hhd hlast

/-- Claim C9: the sanitization primitive is idempotent: for every input
string x, `clean_name (clean_name x) = clean_name x` (parser.rs lines
98-120). -/
theorem C9_clean_name_idempotent (x : List Char) :
    clean_name (clean_name x) = clean_name x := by
  by_cases hlen : byteLen x > 500
  · have hx : clean_name x = str "Invalid_Asset_Name" := by
      unfold clean_name; rw [if_pos hlen]
    rw [hx]
    decide
  · apply clean_name_id_of_partOk (partOk_clean_name x)
    calc byteLen (clean_name x) ≤ byteLen x := byteLen_clean_name_le x (by omega)
      _ ≤ 500 := by omega

-- ### The data model and the Namer (`build_filename`)

/-- The `chrono::NaiveDate` values reachable in this program (all years are
parsed from 4-digit strings, so `Nat` fields suffice). -/
structure CalDate where
  year : Nat
  month : Nat
  day : Nat
deriving DecidableEq

/-- `PdfData` (parser.rs lines 80-90). -/
structure PdfData where
  date : CalDate
  doc_type : List Char
  isin : Option (List Char)
  asset : List Char
deriving DecidableEq

/-- Decimal digit to character. -/
def digitChar : Nat → Char
  | 0 => '0' | 1 => '1' | 2 => '2' | 3 => '3' | 4 => '4'
  | 5 => '5' | 6 => '6' | 7 => '7' | 8 => '8' | _ => '9'

/-- Decimal digits of a natural number (most significant first); the fuel is
always sufficient because `n / 10 < n` for `n ≥ 10`. -/
def natDigitsAux : Nat → Nat → List Char
  | 0, _ => []
  | fuel + 1, n =>
    if n < 10 then [digitChar n]
    else natDigitsAux fuel (n / 10) ++ [digitChar (n % 10)]

/-- Rust `i32`/`u32` `to_string` for the nonnegative values of this program. -/
def natDigits (n : Nat) : List Char := natDigitsAux (n + 1) n

/-- Left zero-padding to a given width, as in chrono numeric formatting. -/
def padZero (w : Nat) (s : List Char) : List Char :=
  List.replicate (w - s.length) '0' ++ s

/-- `date.format("%Y_%m_%d")` (parser.rs line 376). -/
def fmtDate (d : CalDate) : List Char :=
  padZero 4 (natDigits d.year) ++
    '_' :: (padZero 2 (natDigits d.month) ++ '_' :: padZero 2 (natDigits d.day))

/-- `String::truncate(b)` keeps the first `b` bytes; `none` models the Rust
panic when byte `b` is not a character boundary. -/
def truncateBytes : Nat → List Char → Option (List Char)
  | _, [] => some []
  | b, c :: cs =>
    if b = 0 then some []
    else if c.utf8Size ≤ b then (truncateBytes (b - c.utf8Size) cs).map (c :: ·)
    else none

/-- Rust `str::trim_end_matches('_')`. -/
def trimEndUnd (s : List Char) : List Char := (s.reverse.dropWhile isUnd).reverse

/-- `pdf_data.doc_type.replace(' ', "_")` (parser.rs line 379). -/
def replaceSpaceUnd (s : List Char) : List Char :=
  s.map fun c => if c == ' ' then '_' else c

/-- Split a character list at every occurrence of `sep` (keeping empties). -/
def splitChar (sep : Char) : List Char → List (List Char)
  | [] => [[]]
  | c :: cs =>
    let r := splitChar sep cs
    if c == sep then [] :: r else (c :: r.headI) :: r.tail

/-- Rust `Path::file_name`: last normal component ( `.` components and empty
components are skipped; a trailing `..` has no file name). -/
def rustFileName (p : List Char) : Option (List Char) :=
  let comps := (splitChar '/' p).filter (fun c => !(c.isEmpty) && !(c == ['.']))
  match comps.getLast? with
  | none => none
  | some last => if last = str ".." then none else some last

/-- The extension of a file name: the part after the final dot, absent when
there is no dot or when the only dot starts the name. -/
def rustExtSplit (f : List Char) : Option (List Char) :=
  if f.contains '.' then
    let after := (f.reverse.takeWhile (fun c => !(c == '.'))).reverse
    if f.length = after.length + 1 then none else some after
  else none

/-- Rust `Path::new(orig).extension()` (parser.rs lines 395-397). -/
def rustExtension (p : List Char) : Option (List Char) :=
  (rustFileName p).bind rustExtSplit

/-- The identifier filter of `build_filename` (parser.rs lines 389-392):
keep the stored code only when it is exactly 12 alphanumeric bytes. -/
def validIsin : Option (List Char) → Option (List Char)
  | some i => if byteLen i = 12 && i.all Char.isAlphanum then some i else none
  | none => none

/-- The extension validation of `build_filename` (parser.rs lines 395-399):
the extension of the original name when alphanumeric and at most 10 bytes,
else `pdf`. -/
def extOf (orig : List Char) : List Char :=
  match rustExtension orig with
  | some e => if byteLen e ≤ 10 && e.all Char.isAlphanum then e else str "pdf"
  | none => str "pdf"

/-- The final concatenation of `build_filename` (parser.rs lines 401-409):
the duplicate asset segment is suppressed when it equals the identifier. -/
def assemble (date dt : List Char) (isin : Option (List Char))
    (namepart e : List Char) : List Char :=
  match isin with
  | some i =>
    if namepart == i then date ++ '_' :: (dt ++ '_' :: (i ++ '.' :: e))
    else date ++ '_' :: (dt ++ '_' :: (i ++ '_' :: (namepart ++ '.' :: e)))
  | none => date ++ '_' :: (dt ++ '_' :: (namepart ++ '.' :: e))

/-- `build_filename` (parser.rs lines 375-410).  The result is `none` exactly
when `namepart.truncate(50)` panics (byte 50 inside a multi-byte
character). -/
def build_filename (pdf : PdfData) (orig : List Char) : Option (List Char) :=
  let np0 := clean_name pdf.asset
  let npOpt : Option (List Char) :=
    if byteLen np0 > 50 then (truncateBytes 50 np0).map trimEndUnd else some np0
  npOpt.map fun namepart =>
    assemble (fmtDate pdf.date) (clean_name (replaceSpaceUnd pdf.doc_type))
      (validIsin pdf.isin) namepart (extOf orig)

-- ### Helper lemmas for the filename grammar

theorem digitChar_isDigit (n : Nat) : (digitChar n).isDigit = true := by
  unfold digitChar
  split <;> decide

theorem isDigit_ne_und {c : Char} (h : c.isDigit = true) : c ≠ '_' := by
  intro he
  subst he
  exact absurd h (by decide)

theorem mem_natDigitsAux {c : Char} :
    ∀ fuel n, c ∈ natDigitsAux fuel n → ∃ m, c = digitChar m := by
  intro fuel
  induction fuel with
  | zero => intro n h; simp [natDigitsAux] at h
  | succ f ih =>
    intro n h
    unfold natDigitsAux at h
    split at h
    · simp only [List.mem_singleton] at h
      exact ⟨n, h⟩
    · rcases List.mem_append.mp h with h | h
      · exact ih _ h
      · simp only [List.mem_singleton] at h
        exact ⟨n % 10, h⟩

theorem natDigitsAux_ne_nil (fuel n : Nat) (h : 0 < fuel) :
    natDigitsAux fuel n ≠ [] := by
  cases fuel with
  | zero => omega
  | succ f =>
    unfold natDigitsAux
    split
    · simp
    · simp

theorem mem_natDigits_isDigit {c : Char} {n : Nat} (h : c ∈ natDigits n) :
    c.isDigit = true := by
  rcases mem_natDigitsAux _ _ h with ⟨m, hm⟩
  subst hm
  exact digitChar_isDigit m

theorem natDigits_ne_nil (n : Nat) : natDigits n ≠ [] :=
  natDigitsAux_ne_nil _ _ (Nat.succ_pos n)

/-- Every character of a zero-padded digit string is a digit. -/
theorem mem_padZero_natDigits {c : Char} {w n : Nat}
    (h : c ∈ padZero w (natDigits n)) : c.isDigit = true := by
  unfold padZero at h
  rcases List.mem_append.mp h with h | h
  · rw [List.eq_of_mem_replicate h]
    decide
  · exact mem_natDigits_isDigit h

theorem padZero_natDigits_ne_nil (w n : Nat) : padZero w (natDigits n) ≠ [] := by
  unfold padZero
  intro h
  rcases List.append_eq_nil.mp h with ⟨_, h2⟩
  exact natDigits_ne_nil n h2

theorem noDub_of_no_und {s : List Char} (h : ∀ c ∈ s, c ≠ '_') : noDub s = true := by
  induction s with
  | nil => rfl
  | cons a t ih =>
    rw [noDub_cons_iff]
    refine ⟨ih fun c hc => h c (List.mem_cons_of_mem _ hc), fun ha => ?_⟩
    exact absurd ha (h a (List.mem_cons_self _ _))

theorem noDub_append {a b : List Char} (ha : noDub a = true) (hb : noDub b = true)
    (hj : a.getLast? = some '_' → b.head? ≠ some '_') : noDub (a ++ b) = true := by
  induction a with
  | nil => simpa using hb
  | cons x t ih =>
    rw [noDub_cons_iff] at ha
    cases t with
    | nil =>
      simp only [List.nil_append, List.cons_append]
      rw [noDub_cons_iff]
      refine ⟨hb, fun hx => ?_⟩
      apply hj
      rw [hx]
      rfl
    | cons y u =>
      simp only [List.cons_append]
      rw [noDub_cons_iff]
      constructor
      · exact ih ha.1 (fun hl => hj (by rw [List.getLast?_cons_cons] at *; exact hl))
      · intro hx
        have := ha.2 hx
        simp only [List.cons_append, List.head?_cons]
        simpa using this

theorem head?_append_left {a b : List Char} (h : a ≠ []) :
    (a ++ b).head? = a.head? := by
  cases a with
  | nil => exact absurd rfl h
  | cons x t => rfl

theorem getLast?_append_right {a b : List Char} (h : b ≠ []) :
    (a ++ b).getLast? = b.getLast? := by
  rw [List.getLast?_append]
  rcases hc : b.getLast? with _ | c
  · exact absurd (List.getLast?_eq_none_iff.mp hc) h
  · rfl

theorem getLast?_cons_ne_nil {x : Char} {l : List Char} (h : l ≠ []) :
    (x :: l).getLast? = l.getLast? :=
  getLast?_append_right (a := [x]) h

theorem head?_ne_und_of_digits {s : List Char}
    (hd : ∀ c ∈ s, c.isDigit = true) : s.head? ≠ some '_' := by
  intro h
  exact isDigit_ne_und (hd _ (List.mem_of_mem_head? h)) rfl

theorem getLast?_ne_und_of_digits {s : List Char}
    (hd : ∀ c ∈ s, c.isDigit = true) : s.getLast? ≠ some '_' := by
  intro h
  exact isDigit_ne_und (hd _ (List.mem_of_mem_getLast? h)) rfl

/-- The date part `YYYY_MM_DD`: nonempty, digit head and digit last, and no
two adjacent underscores. -/
theorem fmtDate_props (d : CalDate) :
    (∃ c, (fmtDate d).head? = some c ∧ c.isDigit = true) ∧
    (∃ c, (fmtDate d).getLast? = some c ∧ c.isDigit = true) ∧
    noDub (fmtDate d) = true ∧ fmtDate d ≠ [] := by
  unfold fmtDate
  have hy := padZero_natDigits_ne_nil 4 d.year
  have hm := padZero_natDigits_ne_nil 2 d.month
  have hd := padZero_natDigits_ne_nil 2 d.day
  have dy : ∀ c ∈ padZero 4 (natDigits d.year), c.isDigit = true :=
    fun c hc => mem_padZero_natDigits hc
  have dm : ∀ c ∈ padZero 2 (natDigits d.month), c.isDigit = true :=
    fun c hc => mem_padZero_natDigits hc
  have dd : ∀ c ∈ padZero 2 (natDigits d.day), c.isDigit = true :=
    fun c hc => mem_padZero_natDigits hc
  refine ⟨?_, ?_, ?_, ?_⟩
  · rw [head?_append_left hy]
    rcases hc : (padZero 4 (natDigits d.year)).head? with _ | c
    · exact absurd (List.head?_eq_none_iff.mp hc) hy
    · exact ⟨c, rfl, dy c (List.mem_of_mem_head? hc)⟩
  · rw [getLast?_append_right (by simp), getLast?_cons_ne_nil (by simp),
      getLast?_append_right (by simp [hd]), getLast?_cons_ne_nil hd]
    rcases hc : (padZero 2 (natDigits d.day)).getLast? with _ | c
    · exact absurd (List.getLast?_eq_none_iff.mp hc) hd
    · exact ⟨c, rfl, dd c (List.mem_of_mem_getLast? hc)⟩
  · apply noDub_append (noDub_of_no_und fun c hc => isDigit_ne_und (dy c hc))
    · rw [noDub_cons_iff]
      constructor
      · apply noDub_append (noDub_of_no_und fun c hc => isDigit_ne_und (dm c hc))
        · rw [noDub_cons_iff]
          exact ⟨noDub_of_no_und fun c hc => isDigit_ne_und (dd c hc),
            fun _ => head?_ne_und_of_digits dd⟩
        · exact fun hl => absurd hl (getLast?_ne_und_of_digits dm)
      · intro _
        rw [head?_append_left hm]
        exact head?_ne_und_of_digits dm
    · exact fun hl => absurd hl (getLast?_ne_und_of_digits dy)
  · intro h
    exact hy (List.append_eq_nil.mp h).1

theorem truncateBytes_eq_append {t : List Char} :
    ∀ (b : Nat) (s : List Char), truncateBytes b s = some t → ∃ u, s = t ++ u := by
  intro b s
  induction s generalizing b t with
  | nil =>
    intro h
    simp only [truncateBytes, Option.some.injEq] at h
    exact ⟨[], by rw [← h]; rfl⟩
  | cons c cs ih =>
    intro h
    unfold truncateBytes at h
    by_cases hb : b = 0
    · rw [if_pos hb] at h
      simp only [Option.some.injEq] at h
      exact ⟨c :: cs, by rw [← h]; rfl⟩
    · rw [if_neg hb] at h
      by_cases hsz : c.utf8Size ≤ b
      · rw [if_pos hsz] at h
        rcases Option.map_eq_some'.mp h with ⟨t', ht', heq⟩
        rcases ih _ ht' with ⟨u, hu⟩
        exact ⟨u, by rw [← heq, hu]; rfl⟩
      · rw [if_neg hsz] at h
        exact absurd h (by simp)

theorem noDub_of_append_left {a b : List Char} (h : noDub (a ++ b) = true) :
    noDub a = true := by
  induction a with
  | nil => rfl
  | cons x t ih =>
    rw [List.cons_append, noDub_cons_iff] at h
    rw [noDub_cons_iff]
    refine ⟨ih h.1, fun hx => ?_⟩
    have := h.2 hx
    cases t with
    | nil => simp
    | cons y u =>
      rw [List.cons_append, List.head?_cons] at this
      simpa using this

theorem getLast?_trimEndUnd (t : List Char) : (trimEndUnd t).getLast? ≠ some '_' := by
  unfold trimEndUnd
  rw [List.getLast?_reverse]
  intro h
  have := head?_dropWhile_not isUnd t.reverse h
  simp [isUnd] at this

theorem trimEndUnd_eq_append (t : List Char) : ∃ u, t = trimEndUnd t ++ u := by
  rcases List.dropWhile_suffix (l := t.reverse) isUnd with ⟨w, hw⟩
  refine ⟨w.reverse, ?_⟩
  conv_lhs => rw [← List.reverse_reverse t, ← hw]
  rw [List.reverse_append]
  rfl

/-- The sanitize-truncate-trim pipeline for the asset part keeps the part
invariant. -/
theorem partOk_trimEnd_prefix {s t : List Char} (hs : partOk s)
    (hpre : ∃ u, s = t ++ u) : partOk (trimEndUnd t) := by
  obtain ⟨hch, hnd, hhd, _⟩ := hs
  rcases hpre with ⟨u, hu⟩
  rcases trimEndUnd_eq_append t with ⟨v, hv⟩
  have hmem : ∀ c ∈ trimEndUnd t, c ∈ s := by
    intro c hc
    rw [hu, hv]
    exact List.mem_append_left _ (List.mem_append_left _ hc)
  refine ⟨fun c hc => hch c (hmem c hc), ?_, ?_, getLast?_trimEndUnd t⟩
  · have h1 : noDub t = true := by
      apply noDub_of_append_left (b := u)
      rw [← hu]; exact hnd
    apply noDub_of_append_left (b := v)
    rw [← hv]; exact h1
  · by_cases hne : trimEndUnd t = []
    · rw [hne]; simp
    · have h2 : s = trimEndUnd t ++ (v ++ u) := by
        rw [hu]
        conv_lhs => rw [hv]
        rw [List.append_assoc]
      have hh : s.head? = (trimEndUnd t).head? := by
        rw [h2]
        exact head?_append_left hne
      rw [← hh]
      exact hhd

theorem isAlphanum_ne_und {c : Char} (h : c.isAlphanum = true) : c ≠ '_' := by
  intro he
  subst he
  exact absurd h (by decide)

theorem getLast?_dot_ext {e : List Char} (he : ∀ c ∈ e, c ≠ '_') (a : List Char) :
    (a ++ '.' :: e).getLast? ≠ some '_' := by
  rw [getLast?_append_right (by simp)]
  cases e with
  | nil => simp
  | cons x xs =>
    rw [getLast?_cons_ne_nil (by simp)]
    intro h
    exact he _ (List.mem_of_mem_getLast? h) rfl

theorem noDub_dot_ext {e : List Char} (he : ∀ c ∈ e, c ≠ '_') :
    noDub ('.' :: e) = true := by
  apply noDub_of_no_und
  intro c hc
  rcases List.mem_cons.mp hc with h | h
  · subst h; decide
  · exact he c h

theorem extOf_cases (orig : List Char) :
    extOf orig = str "pdf" ∨
      (rustExtension orig = some (extOf orig) ∧ byteLen (extOf orig) ≤ 10 ∧
        ∀ c ∈ extOf orig, c.isAlphanum = true) := by
  rcases he : rustExtension orig with _ | e
  · left
    unfold extOf
    rw [he]
  · by_cases hc : byteLen e ≤ 10 && e.all Char.isAlphanum
    · right
      have hx : extOf orig = e := by
        unfold extOf
        rw [he]
        exact if_pos hc
      rw [hx]
      simp only [Bool.and_eq_true, decide_eq_true_eq, List.all_eq_true] at hc
      exact ⟨rfl, hc.1, hc.2⟩
    · left
      unfold extOf
      rw [he]
      exact if_neg hc

theorem extOf_ne_und (orig : List Char) : ∀ c ∈ extOf orig, c ≠ '_' := by
  rcases extOf_cases orig with h | ⟨_, _, h⟩
  · rw [h]
    intro c hc
    fin_cases hc <;> decide
  · exact fun c hc => isAlphanum_ne_und (h c hc)

theorem head?_part_dot {np : List Char} (h : np.head? ≠ some '_') (x : Char)
    (hx : x ≠ '_') (e : List Char) : (np ++ x :: e).head? ≠ some '_' := by
  cases np with
  | nil => simpa using hx
  | cons a t =>
    rw [head?_append_left (by simp)]
    exact h

theorem assemble_none (fd dt np e : List Char) :
    assemble fd dt none np e = fd ++ '_' :: (dt ++ '_' :: (np ++ '.' :: e)) := rfl

theorem assemble_some_dup {np i : List Char} (fd dt e : List Char)
    (h : (np == i) = true) :
    assemble fd dt (some i) np e = fd ++ '_' :: (dt ++ '_' :: (i ++ '.' :: e)) := by
  unfold assemble
  exact if_pos h

theorem assemble_some_full {np i : List Char} (fd dt e : List Char)
    (h : (np == i) = false) :
    assemble fd dt (some i) np e =
      fd ++ '_' :: (dt ++ '_' :: (i ++ '_' :: (np ++ '.' :: e))) := by
  unfold assemble
  exact if_neg (by simp [h])

theorem assemble_head {fd : List Char} (dt : List Char) (isin : Option (List Char))
    (np e : List Char) (h : fd ≠ []) :
    (assemble fd dt isin np e).head? = fd.head? := by
  rcases isin with _ | i
  · rw [assemble_none]
    exact head?_append_left h
  · rcases hbe : np == i with _ | _
    · rw [assemble_some_full fd dt e hbe]
      exact head?_append_left h
    · rw [assemble_some_dup fd dt e hbe]
      exact head?_append_left h

theorem assemble_last (fd dt : List Char) (isin : Option (List Char)) (np e : List Char)
    (he : ∀ c ∈ e, c ≠ '_') :
    (assemble fd dt isin np e).getLast? ≠ some '_' := by
  rcases isin with _ | i
  · rw [assemble_none, getLast?_append_right (by simp), getLast?_cons_ne_nil (by simp),
      getLast?_append_right (by simp), getLast?_cons_ne_nil (by simp)]
    exact getLast?_dot_ext he np
  · rcases hbe : np == i with _ | _
    · rw [assemble_some_full fd dt e hbe, getLast?_append_right (by simp),
        getLast?_cons_ne_nil (by simp), getLast?_append_right (by simp),
        getLast?_cons_ne_nil (by simp), getLast?_append_right (by simp),
        getLast?_cons_ne_nil (by simp)]
      exact getLast?_dot_ext he np
    · rw [assemble_some_dup fd dt e hbe, getLast?_append_right (by simp),
        getLast?_cons_ne_nil (by simp), getLast?_append_right (by simp),
        getLast?_cons_ne_nil (by simp)]
      exact getLast?_dot_ext he i

theorem assemble_noDub (fd dt : List Char) (isin : Option (List Char)) (np e : List Char)
    (hfd : noDub fd = true) (hfdl : fd.getLast? ≠ some '_')
    (hdt : noDub dt = true) (hdth : dt.head? ≠ some '_') (hdtl : dt.getLast? ≠ some '_')
    (hdtne : dt ≠ [])
    (hnp : noDub np = true) (hnph : np.head? ≠ some '_') (hnpl : np.getLast? ≠ some '_')
    (hisin : ∀ i, isin = some i → i ≠ [] ∧ ∀ c ∈ i, c ≠ '_')
    (he : ∀ c ∈ e, c ≠ '_') :
    noDub (assemble fd dt isin np e) = true := by
  have hdot : ∀ (l : List Char), l.head? ≠ some '_' →
      noDub l = true → l.getLast? ≠ some '_' → noDub (l ++ '.' :: e) = true := by
    intro l hh hn hl
    exact noDub_append hn (noDub_dot_ext he) (fun h => absurd h hl)
  have hmid : ∀ (l : List Char), l.head? ≠ some '_' → noDub l = true →
      noDub (dt ++ '_' :: l) = true := by
    intro l hh hn
    apply noDub_append hdt
    · rw [noDub_cons_iff]
      exact ⟨hn, fun _ => hh⟩
    · exact fun h => absurd h hdtl
  have houter : ∀ (l : List Char), l.head? ≠ some '_' → noDub l = true →
      noDub (fd ++ '_' :: (dt ++ '_' :: l)) = true := by
    intro l hh hn
    apply noDub_append hfd
    · rw [noDub_cons_iff]
      refine ⟨hmid l hh hn, fun _ => ?_⟩
      cases dt with
      | nil => exact absurd rfl hdtne
      | cons a t =>
        rw [head?_append_left (by simp)]
        exact hdth
    · exact fun h => absurd h hfdl
  rcases isin with _ | i
  · rw [assemble_none]
    exact houter _ (head?_part_dot hnph '.' (by decide) e) (hdot np hnph hnp hnpl)
  · obtain ⟨hine, hiu⟩ := hisin i rfl
    have hih : i.head? ≠ some '_' := by
      intro h
      exact hiu _ (List.mem_of_mem_head? h) rfl
    have hil : i.getLast? ≠ some '_' := by
      intro h
      exact hiu _ (List.mem_of_mem_getLast? h) rfl
    have hind : noDub i = true := noDub_of_no_und hiu
    rcases hbe : np == i with _ | _
    · rw [assemble_some_full fd dt e hbe]
      apply houter
      · cases i with
        | nil => exact absurd rfl hine
        | cons a t =>
          rw [head?_append_left (by simp)]
          exact hih
      · apply noDub_append hind
        · rw [noDub_cons_iff]
          exact ⟨hdot np hnph hnp hnpl, fun _ => head?_part_dot hnph '.' (by decide) e⟩
        · exact fun h => absurd h hil
    · rw [assemble_some_dup fd dt e hbe]
      exact houter _ (head?_part_dot hih '.' (by decide) e) (hdot i hih hind hil)

theorem validIsin_some (i : List Char) :
    validIsin (some i) =
      if byteLen i = 12 && i.all Char.isAlphanum then some i else none := rfl

theorem validIsin_some_inv {o : Option (List Char)} {i : List Char}
    (h : validIsin o = some i) :
    byteLen i = 12 ∧ ∀ c ∈ i, c.isAlphanum = true := by
  rcases o with _ | j
  · exact absurd h (by simp [validIsin])
  · rw [validIsin_some] at h
    by_cases hc : byteLen j = 12 && j.all Char.isAlphanum
    · rw [if_pos hc] at h
      injection h with h
      subst h
      simp only [Bool.and_eq_true, decide_eq_true_eq, List.all_eq_true] at hc
      exact ⟨hc.1, hc.2⟩
    · rw [if_neg hc] at h
      exact absurd h (by simp)

theorem ne_nil_of_byteLen_twelve {i : List Char} (h : byteLen i = 12) : i ≠ [] := by
  intro he
  subst he
  simp [byteLen] at h

/-- Claim C2 (refuted by the code): `build_filename` is not total.  When the
sanitized asset label is longer than 50 bytes and byte 50 falls inside a
multi-byte character, `namepart.truncate(50)` (parser.rs line 384) panics;
the model returns `none` exactly there.  Here the label is 49 `a`s followed
by `ß` (two bytes) and `b`: bytes 49 and 50 form the `ß`. -/
theorem C2_truncate_panic :
    build_filename
      ⟨⟨2024, 1, 1⟩, str "Kauf", none, List.replicate 49 'a' ++ [ 'ß', 'b']⟩
      (str "x.pdf") = none := by decide

/-- Claim C1 counterexample: at this record and original name the output of
`build_filename` breaks the claimed grammar three times over: the category
`(` sanitizes to the empty string, so the name contains two adjacent
separators; the label keeps the `-`, a character outside `[A-Za-z0-9_]`;
and the original name `foo.` yields the empty extension, which is kept
(it passes the at-most-10-alphanumeric filter), not replaced by `pdf`. -/
theorem C1_grammar_cex :
    build_filename ⟨⟨2026, 1, 6⟩, str "(", some (str "IE00BZ163G84"), str "Foo-Bar"⟩
        (str "foo.") = some (str "2026_01_06__IE00BZ163G84_Foo-Bar.") ∧
    noDub (str "2026_01_06__IE00BZ163G84_Foo-Bar.") = false ∧
    ('-' ∈ str "2026_01_06__IE00BZ163G84_Foo-Bar." ∧
      ('-'.isAlphanum || '-' == '_') = false) ∧
    rustExtension (str "foo.") = some [] := by
  refine ⟨by decide, by decide, ⟨by decide, by decide⟩, by decide⟩

/-- Claim C1 (amended): for every record and original name on which
`build_filename` returns at all (see C2), the output decomposes as
`<YYYY_MM_DD>_<category>[_<identifier>]_<label>.<ext>` where: the category
and label parts carry the sanitizer invariant (no control, bidirectional,
dangerous, whitespace or comma characters; no two adjacent separators; no
leading or trailing separator) -- but are not restricted to `[A-Za-z0-9_]`;
the identifier segment appears only when the stored code is exactly 12
alphanumeric bytes (and the label segment is dropped when it equals the
identifier); the extension is either taken from the original name
(alphanumeric, at most 10 bytes, possibly empty) or defaults to `pdf`; the
whole name starts with a digit, never ends with a separator, and has no two
adjacent separators whenever the sanitized category is nonempty. -/
theorem C1_filename_grammar (pdf : PdfData) (orig out : List Char)
    (h : build_filename pdf orig = some out) :
    ∃ dt np e,
      dt = clean_name (replaceSpaceUnd pdf.doc_type) ∧ partOk dt ∧ partOk np ∧
      (e = str "pdf" ∨
        (rustExtension orig = some e ∧ byteLen e ≤ 10 ∧ ∀ c ∈ e, c.isAlphanum = true)) ∧
      ((∃ i, pdf.isin = some i ∧ byteLen i = 12 ∧ (∀ c ∈ i, c.isAlphanum = true) ∧
          ((np = i ∧ out = fmtDate pdf.date ++ '_' :: (dt ++ '_' :: (i ++ '.' :: e))) ∨
            (np ≠ i ∧
              out = fmtDate pdf.date ++
                '_' :: (dt ++ '_' :: (i ++ '_' :: (np ++ '.' :: e)))))) ∨
        out = fmtDate pdf.date ++ '_' :: (dt ++ '_' :: (np ++ '.' :: e))) ∧
      (∃ c, out.head? = some c ∧ c.isDigit = true) ∧
      out.getLast? ≠ some '_' ∧
      ((clean_name (replaceSpaceUnd pdf.doc_type)) ≠ [] → noDub out = true) := by
  simp only [build_filename] at h
  rcases Option.map_eq_some'.mp h with ⟨np, hnp, hout⟩
  have hout : out = assemble (fmtDate pdf.date) (clean_name (replaceSpaceUnd pdf.doc_type))
      (validIsin pdf.isin) np (extOf orig) := hout.symm
  have hpOk : partOk np := by
    by_cases h50 : byteLen (clean_name pdf.asset) > 50
    · rw [if_pos h50] at hnp
      rcases Option.map_eq_some'.mp hnp with ⟨t, ht, htr⟩
      rw [← htr]
      exact partOk_trimEnd_prefix (partOk_clean_name _) (truncateBytes_eq_append _ _ ht)
    · rw [if_neg h50] at hnp
      injection hnp with hnp
      rw [← hnp]
      exact partOk_clean_name _
  have hdtOk : partOk (clean_name (replaceSpaceUnd pdf.doc_type)) := partOk_clean_name _
  have heUnd : ∀ c ∈ extOf orig, c ≠ '_' := extOf_ne_und orig
  refine ⟨clean_name (replaceSpaceUnd pdf.doc_type), np, extOf orig,
    rfl, hdtOk, hpOk, extOf_cases orig, ?_, ?_, ?_, ?_⟩
  · rcases hi : pdf.isin with _ | i
    · right
      rw [hout, hi, show validIsin none = none from rfl, assemble_none]
    · by_cases hv : byteLen i = 12 && i.all Char.isAlphanum
      · left
        have hvv := hv
        simp only [Bool.and_eq_true, decide_eq_true_eq, List.all_eq_true] at hvv
        refine ⟨i, rfl, hvv.1, hvv.2, ?_⟩
        rw [hi] at hout
        rw [validIsin_some, if_pos hv] at hout
        rcases hbe : np == i with _ | _
        · right
          refine ⟨by simpa using hbe, ?_⟩
          rw [hout, assemble_some_full _ _ _ hbe]
        · left
          refine ⟨by simpa using hbe, ?_⟩
          rw [hout, assemble_some_dup _ _ _ hbe]
      · right
        rw [hout, hi, validIsin_some, if_neg hv, assemble_none]
  · rw [hout]
    obtain ⟨⟨c, hc, hcd⟩, _, _, hfdne⟩ := fmtDate_props pdf.date
    rw [assemble_head _ _ _ _ hfdne]
    exact ⟨c, hc, hcd⟩
  · rw [hout]
    exact assemble_last _ _ _ _ _ heUnd
  · intro hdtne
    rw [hout]
    obtain ⟨_, ⟨cl, hcl, hcld⟩, hfnd, _⟩ := fmtDate_props pdf.date
    obtain ⟨_, hdtnd, hdth, hdtl⟩ := hdtOk
    obtain ⟨_, hnpnd, hnph, hnpl⟩ := hpOk
    apply assemble_noDub
    · exact hfnd
    · intro hcontra
      rw [hcl] at hcontra
      injection hcontra with hcontra
      exact isDigit_ne_und hcld hcontra
    · exact hdtnd
    · exact hdth
    · exact hdtl
    · exact hdtne
    · exact hnpnd
    · exact hnph
    · exact hnpl
    · intro i hvi
      obtain ⟨hb, ha⟩ := validIsin_some_inv hvi
      exact ⟨ne_nil_of_byteLen_twelve hb, fun c hc => isAlphanum_ne_und (ha c hc)⟩
    · exact heUnd

/-- Witness for C1: the amended grammar instantiated at the record of the
repository's `test_normal_filename` unit test, with all hypotheses
discharged by evaluation. -/
theorem C1_filename_grammar_witness :
    ∃ dt np e,
      dt = clean_name (replaceSpaceUnd (str "Kauf")) ∧ partOk dt ∧ partOk np ∧
      (e = str "pdf" ∨
        (rustExtension (str "original.pdf") = some e ∧ byteLen e ≤ 10 ∧
          ∀ c ∈ e, c.isAlphanum = true)) ∧
      ((∃ i, (some (str "IE00BZ163G84") : Option (List Char)) = some i ∧
          byteLen i = 12 ∧ (∀ c ∈ i, c.isAlphanum = true) ∧
          ((np = i ∧ str "2026_01_06_Kauf_IE00BZ163G84_Nvidia.pdf" =
              fmtDate ⟨2026, 1, 6⟩ ++ '_' :: (dt ++ '_' :: (i ++ '.' :: e))) ∨
            (np ≠ i ∧ str "2026_01_06_Kauf_IE00BZ163G84_Nvidia.pdf" =
              fmtDate ⟨2026, 1, 6⟩ ++
                '_' :: (dt ++ '_' :: (i ++ '_' :: (np ++ '.' :: e)))))) ∨
        str "2026_01_06_Kauf_IE00BZ163G84_Nvidia.pdf" =
          fmtDate ⟨2026, 1, 6⟩ ++ '_' :: (dt ++ '_' :: (np ++ '.' :: e))) ∧
      (∃ c, (str "2026_01_06_Kauf_IE00BZ163G84_Nvidia.pdf").head? = some c ∧
        c.isDigit = true) ∧
      (str "2026_01_06_Kauf_IE00BZ163G84_Nvidia.pdf").getLast? ≠ some '_' ∧
      (clean_name (replaceSpaceUnd (str "Kauf")) ≠ [] →
        noDub (str "2026_01_06_Kauf_IE00BZ163G84_Nvidia.pdf") = true) :=
  C1_filename_grammar
    ⟨⟨2026, 1, 6⟩, str "Kauf", some (str "IE00BZ163G84"), str "Nvidia"⟩
    (str "original.pdf") (str "2026_01_06_Kauf_IE00BZ163G84_Nvidia.pdf") (by decide)

-- ### String utilities for the Extractor
-- Unicode-dependent primitives (`to_uppercase`, `\w`, `\d`) are modelled on
-- ASCII plus the German letters that occur in this program's keyword tables
-- and documents; all other characters map to themselves / non-word.

/-- Rust `str::to_uppercase` (`ß` expands to `SS`). -/
def rustUpperChar (c : Char) : List Char :=
  if c = 'ß' then ['S', 'S']
  else if c = 'ä' then ['Ä']
  else if c = 'ö' then ['Ö']
  else if c = 'ü' then ['Ü']
  else [c.toUpper]

def rustToUpper (s : List Char) : List Char := (s.map rustUpperChar).flatten

/-- Rust `str::to_lowercase` (`ß` is already lowercase). -/
def rustLowerChar (c : Char) : Char :=
  if c = 'Ä' then 'ä'
  else if c = 'Ö' then 'ö'
  else if c = 'Ü' then 'ü'
  else c.toLower

def rustToLower (s : List Char) : List Char := s.map rustLowerChar

/-- Rust `str::contains(needle)` for literal needles. -/
def hasSub : List Char → List Char → Bool
  | hay, needle =>
    needle.isPrefixOf hay ||
      match hay with
      | [] => false
      | _ :: t => hasSub t needle

/-- Rust `str::starts_with(needle)`. -/
def startsWithStr (hay needle : List Char) : Bool := needle.isPrefixOf hay

/-- Rust `str::trim` (Unicode whitespace on both ends). -/
def trimWs (s : List Char) : List Char :=
  ((s.dropWhile isRustWs).reverse.dropWhile isRustWs).reverse

/-- Rust `str::eq_ignore_ascii_case`. -/
def eqIgnoreCase : List Char → List Char → Bool
  | [], [] => true
  | x :: xs, y :: ys => (x.toLower == y.toLower) && eqIgnoreCase xs ys
  | _, _ => false

/-- Rust `str::lines`: split at `\n`, drop one trailing `\r` per line, and do
not yield a final empty line. -/
def rustLines (t : List Char) : List (List Char) :=
  let ps := splitChar '\n' t
  let ps := if ps.getLast? = some [] then ps.dropLast else ps
  ps.map fun l => if l.getLast? = some '\r' then l.dropLast else l

/-- A word character for the regex `\b` assertion (`\w`), restricted as
described above. -/
def isWordChar (c : Char) : Bool :=
  c.isAlphanum || c = '_' || c = 'ä' || c = 'ö' || c = 'ü' || c = 'ß' ||
  c = 'Ä' || c = 'Ö' || c = 'Ü'

def isWordCharOpt : Option Char → Bool
  | none => false
  | some c => isWordChar c

/-- `\b` holds after the match when no word character follows. -/
def noWordAhead : List Char → Bool
  | [] => true
  | c :: _ => !(isWordChar c)

/-- `\s*`: drop leading whitespace. -/
def wsStar (s : List Char) : List Char := s.dropWhile isRustWs

/-- `\s+`: at least one whitespace character, then `\s*`.  (Greedy; every
use in this file is followed by a non-whitespace pattern element, so the
maximal run is the only viable choice.) -/
def wsPlus : List Char → Option (List Char)
  | c :: cs => if isRustWs c then some (wsStar cs) else none
  | [] => none

/-- Case-insensitive literal match; returns the rest. -/
def matchCI : List Char → List Char → Option (List Char)
  | [], s => some s
  | _ :: _, [] => none
  | k :: ks, c :: cs => if k.toLower == c.toLower then matchCI ks cs else none

/-- Case-sensitive literal match; returns the rest. -/
def matchLit : List Char → List Char → Option (List Char)
  | [], s => some s
  | _ :: _, [] => none
  | k :: ks, c :: cs => if k == c then matchLit ks cs else none

def digVal (c : Char) : Nat := c.toNat - 48

-- ### Dates (`chrono::NaiveDate` construction and parsing)

def isLeapYear (y : Nat) : Bool :=
  y % 4 = 0 && (y % 100 ≠ 0 || y % 400 = 0)

def daysInMonth (y m : Nat) : Nat :=
  if m = 2 then (if isLeapYear y then 29 else 28)
  else if m = 4 || m = 6 || m = 9 || m = 11 then 30
  else 31

/-- `NaiveDate::from_ymd_opt`. -/
def fromYmd (y m d : Nat) : Option CalDate :=
  if 1 ≤ m && m ≤ 12 && 1 ≤ d && d ≤ daysInMonth y m then some ⟨y, m, d⟩ else none

/-- `parse_numeric_date_component` (parser.rs lines 491-504).  The inputs of
every call are regex captures of shape `dd.mm.yyyy` or `yyyy-mm-dd`; the two
chrono format parses are modelled on exactly these shapes. -/
def parse_numeric_date_component (s0 : List Char) : Option CalDate :=
  let s := trimWs s0
  if s.contains '.' then
    match s with
    | [d1, d2, p1, m1, m2, p2, y1, y2, y3, y4] =>
      if p1 == '.' && p2 == '.' && d1.isDigit && d2.isDigit && m1.isDigit &&
          m2.isDigit && y1.isDigit && y2.isDigit && y3.isDigit && y4.isDigit then
        fromYmd (1000 * digVal y1 + 100 * digVal y2 + 10 * digVal y3 + digVal y4)
          (10 * digVal m1 + digVal m2) (10 * digVal d1 + digVal d2)
      else none
    | _ => none
  else
    match s with
    | [y1, y2, y3, y4, p1, m1, m2, p2, d1, d2] =>
      if p1 == '-' && p2 == '-' && d1.isDigit && d2.isDigit && m1.isDigit &&
          m2.isDigit && y1.isDigit && y2.isDigit && y3.isDigit && y4.isDigit then
        fromYmd (1000 * digVal y1 + 100 * digVal y2 + 10 * digVal y3 + digVal y4)
          (10 * digVal m1 + digVal m2) (10 * digVal d1 + digVal d2)
      else none
    | _ => none

/-- First occurrence of a literal separator; returns the tail after it
(Rust `str::find` + slicing, parser.rs lines 479-486). -/
def findTail (sep : List Char) : List Char → Option (List Char)
  | [] => if sep.isEmpty then some [] else none
  | c :: t =>
    if sep.isPrefixOf (c :: t) then some ((c :: t).drop sep.length)
    else findTail sep t

/-- `parse_numeric_date` (parser.rs lines 474-489): component parse first,
then the (never-reached from the regex captures) range split on three dash
separators. -/
def parse_numeric_date (s : List Char) : Option CalDate :=
  match parse_numeric_date_component s with
  | some d => some d
  | none =>
    match (findTail (str " - ") s).bind parse_numeric_date_component with
    | some d => some d
    | none =>
      match (findTail (str " – ") s).bind parse_numeric_date_component with
      | some d => some d
      | none => (findTail (str " — ") s).bind parse_numeric_date_component

/-- `month_name_to_number` (parser.rs lines 513-537). -/
def month_name_to_number (raw : List Char) : Option Nat :=
  let m := rustToLower (trimWs raw)
  let m := m.filter fun c => !(c == '.')
  let m := (m.map fun c =>
    if c = 'ä' then str "ae"
    else if c = 'ö' then str "oe"
    else if c = 'ü' then str "ue"
    else if c = 'ß' then str "ss"
    else [c]).flatten
  let m := m.filter fun c => !(isRustWs c)
  if m = str "jan" || m = str "januar" || m = str "january" then some 1
  else if m = str "feb" || m = str "februar" || m = str "february" then some 2
  else if m = str "mar" || m = str "march" || m = str "maerz" || m = str "marz" then some 3
  else if m = str "apr" || m = str "april" then some 4
  else if m = str "mai" || m = str "may" then some 5
  else if m = str "jun" || m = str "juni" || m = str "june" then some 6
  else if m = str "jul" || m = str "juli" || m = str "july" then some 7
  else if m = str "aug" || m = str "august" then some 8
  else if m = str "sep" || m = str "sept" || m = str "september" then some 9
  else if m = str "okt" || m = str "oktober" || m = str "oct" || m = str "october" then some 10
  else if m = str "nov" || m = str "november" then some 11
  else if m = str "dez" || m = str "dezember" || m = str "dec" || m = str "december" then some 12
  else none

/-- `parse_textual_date_components` (parser.rs lines 506-511); the day and
year captures are already converted to numbers by the matchers. -/
def parse_textual_date_components (day : Nat) (month : List Char) (year : Nat) :
    Option CalDate :=
  (month_name_to_number month).bind fun m => fromYmd year m day

-- ### Hand-compiled matchers for the twelve patterns of parser.rs.
-- Each `try...` function attempts its pattern at the current position; the
-- generic scanners below provide the regex crate's leftmost-first `find`,
-- `captures_iter` (restart after the previous match) and `is_match`.

/-- Leftmost scan: try the pattern at every position, left to right.
`wordStart` adds the leading `\b` (every pattern here then begins with a
word character, so the boundary holds exactly when the previous character is
not a word character). -/
def findFrom {α : Type} (try1 : List Char → Option α) (wordStart : Bool) :
    Option Char → List Char → Option α
  | prev, [] => if !wordStart || !(isWordCharOpt prev) then try1 [] else none
  | prev, c :: cs =>
    match (if !wordStart || !(isWordCharOpt prev) then try1 (c :: cs) else none) with
    | some r => some r
    | none => findFrom try1 wordStart (some c) cs

/-- `captures_iter(...).filter_map(f).next()`: iterate matches (each later
scan restarts after the end of the previous match) and return the first
accepted one.  The fuel is the remaining text length plus one; every match
consumes at least one character, so it never runs out. -/
def findMapIter {α β : Type} (try1 : List Char → Option (α × Char × List Char))
    (wordStart : Bool) (f : α → Option β) :
    Nat → Option Char → List Char → Option β
  | 0, _, _ => none
  | fuel + 1, prev, s =>
    match findFrom try1 wordStart prev s with
    | none => none
    | some (a, last, rest) =>
      match f a with
      | some b => some b
      | none => findMapIter try1 wordStart f fuel (some last) rest

/-- `captures_iter(...)` collected into a list (used for `YEAR_RE`). -/
def collectIter {α : Type} (try1 : List Char → Option (α × Char × List Char))
    (wordStart : Bool) : Nat → Option Char → List Char → List α
  | 0, _, _ => []
  | fuel + 1, prev, s =>
    match findFrom try1 wordStart prev s with
    | none => []
    | some (a, last, rest) => a :: collectIter try1 wordStart fuel (some last) rest

/-- The `dd.mm.yyyy | yyyy-mm-dd` alternation shared by `DATE_RE`,
`ANY_DATE_RE` and `NUMERIC_RANGE_RE` (both alternatives are 10 characters;
the dotted one is tried first). -/
def matchDate10 : List Char → Option (List Char × List Char)
  | c0 :: c1 :: c2 :: c3 :: c4 :: c5 :: c6 :: c7 :: c8 :: c9 :: rest =>
    if c0.isDigit && c1.isDigit && c2 == '.' && c3.isDigit && c4.isDigit &&
        c5 == '.' && c6.isDigit && c7.isDigit && c8.isDigit && c9.isDigit then
      some ([c0, c1, c2, c3, c4, c5, c6, c7, c8, c9], rest)
    else if c0.isDigit && c1.isDigit && c2.isDigit && c3.isDigit && c4 == '-' &&
        c5.isDigit && c6.isDigit && c7 == '-' && c8.isDigit && c9.isDigit then
      some ([c0, c1, c2, c3, c4, c5, c6, c7, c8, c9], rest)
    else none
  | _ => none

/-- The keyword alternation
`DATUM|DATE|ERSTELLT\s+AM|STAND|GENERATED|CREATED|AS\s+OF` (the alternatives
are mutually exclusive at any one position, so returning the first success
realizes the regex's leftmost-first backtracking). -/
def matchDateKeyword (s : List Char) : Option (List Char) :=
  match matchCI (str "DATUM") s with
  | some r => some r
  | none =>
  match matchCI (str "DATE") s with
  | some r => some r
  | none =>
  match (matchCI (str "ERSTELLT") s).bind fun r =>
      (wsPlus r).bind fun r => matchCI (str "AM") r with
  | some r => some r
  | none =>
  match matchCI (str "STAND") s with
  | some r => some r
  | none =>
  match matchCI (str "GENERATED") s with
  | some r => some r
  | none =>
  match matchCI (str "CREATED") s with
  | some r => some r
  | none =>
    (matchCI (str "AS") s).bind fun r => (wsPlus r).bind fun r => matchCI (str "OF") r

/-- `\s*[:\-]?\s*` (deterministic: what follows is always a digit, never
whitespace, a colon or a dash). -/
def sepColonDash (s : List Char) : List Char :=
  let r := wsStar s
  match r with
  | c :: cs => if c == ':' || c == '-' then wsStar cs else r
  | [] => r

/-- `DATE_RE` at the current position (after `\b`): keyword, separator, one
`date10` capture; returns (capture, last matched char, rest). -/
def tryDateRe (s : List Char) : Option (List Char × Char × List Char) :=
  (matchDateKeyword s).bind fun r =>
    (matchDate10 (sepColonDash r)).map fun (cap, rest) =>
      (cap, cap.getLastD ' ', rest)

/-- `ANY_DATE_RE` at the current position: a `date10` with `\b` on both
sides. -/
def tryAnyDate (s : List Char) : Option (List Char × Char × List Char) :=
  (matchDate10 s).bind fun (cap, rest) =>
    if noWordAhead rest then some (cap, cap.getLastD ' ', rest) else none

/-- `\s*[-–—]\s*` between the two dates of a range. -/
def dashSep (s : List Char) : Option (List Char) :=
  match wsStar s with
  | c :: cs => if c == '-' || c == '–' || c == '—' then some (wsStar cs) else none
  | [] => none

/-- `NUMERIC_RANGE_RE` at the current position: keyword, separator, first
`date10`, dash, second `date10`; only the second capture is used
(parser.rs line 422). -/
def tryNumericRange (s : List Char) : Option (List Char) :=
  (matchDateKeyword s).bind fun r =>
    (matchDate10 (sepColonDash r)).bind fun (_, rest) =>
      (dashSep rest).bind fun r2 =>
        (matchDate10 r2).map fun (cap2, _) => cap2

/-- The possible parses of `([0-3]?\d)` in greedy order (two digits first,
then one), each with the remaining text. -/
def dayOptions : List Char → List (Nat × List Char)
  | c0 :: c1 :: rest =>
    if (c0 == '0' || c0 == '1' || c0 == '2' || c0 == '3') && c1.isDigit then
      [(10 * digVal c0 + digVal c1, rest), (digVal c0, c1 :: rest)]
    else if c0.isDigit then [(digVal c0, c1 :: rest)]
    else []
  | [c0] => if c0.isDigit then [(digVal c0, [])] else []
  | [] => []

/-- `\s+([[:alpha:].]+)\s+(20[0-9]{2})` after a day capture.  The month run
is ASCII letters and dots (POSIX `[:alpha:]` is ASCII); it is maximal, which
is the only viable choice because the following element is whitespace. -/
def monthYear (s : List Char) : Option (List Char × Nat × Char × List Char) :=
  (wsPlus s).bind fun r =>
    let month := r.takeWhile fun c => c.isAlpha || c == '.'
    if month.isEmpty then none
    else
      (wsPlus (r.drop month.length)).bind fun r2 =>
        match r2 with
        | y0 :: y1 :: y2 :: y3 :: rest =>
          if y0 == '2' && y1 == '0' && y2.isDigit && y3.isDigit then
            some (month, 2000 + 10 * digVal y2 + digVal y3, y3, rest)
          else none
        | _ => none

/-- A day-month-year triple with full backtracking over the day options; the
continuation `k` receives the rest after the year and may reject. -/
def tripleAux {α : Type} (k : Nat → List Char → Nat → Char → List Char → Option α) :
    List (Nat × List Char) → Option α
  | [] => none
  | (d, r) :: opts =>
    match (monthYear r).bind fun (m, y, last, r2) => k d m y last r2 with
    | some v => some v
    | none => tripleAux k opts

/-- `TEXTUAL_DATUM_RE` tail after `DATUM[^\n]*?`: returns
(day, month, year) with the match end for the iterator. -/
def tryDayTriple (s : List Char) :
    Option ((Nat × List Char × Nat) × Char × List Char) :=
  tripleAux (fun d m y last r2 => some ((d, m, y), last, r2)) (dayOptions s)

/-- The lazy `[^\n]*?` of `TEXTUAL_DATUM_RE` and `TEXTUAL_RANGE_RE`: try the
tail pattern at each offset within the line, shortest skip first. -/
def lazyLineScan {α : Type} (try1 : List Char → Option α) : List Char → Option α
  | [] => try1 []
  | c :: cs =>
    match try1 (c :: cs) with
    | some v => some v
    | none => if c == '\n' then none else lazyLineScan try1 cs

/-- `TEXTUAL_DATUM_RE` at the current position (after `\b`). -/
def tryTextualDatum (s : List Char) :
    Option ((Nat × List Char × Nat) × Char × List Char) :=
  (matchCI (str "DATUM") s).bind (lazyLineScan tryDayTriple)

/-- The range tail of `TEXTUAL_RANGE_RE`: first triple, dash, second triple;
only the second triple (captures 4-6) is returned (parser.rs lines
413-419). -/
def tryRangeTail (s : List Char) : Option (Nat × List Char × Nat) :=
  tripleAux (fun _ _ _ _ r2 =>
    (dashSep r2).bind fun r3 =>
      tripleAux (fun d2 m2 y2 _ _ => some (d2, m2, y2)) (dayOptions r3))
    (dayOptions s)

/-- `TEXTUAL_RANGE_RE` at the current position (after `\b`). -/
def tryTextualRange (s : List Char) : Option (Nat × List Char × Nat) :=
  (matchCI (str "DATUM") s).bind (lazyLineScan tryRangeTail)

/-- `TEXTUAL_DATE_RE` at the current position: `\b` before (checked by the
scanner), a triple, `\b` after the year. -/
def tryTextualDate (s : List Char) :
    Option ((Nat × List Char × Nat) × Char × List Char) :=
  tripleAux (fun d m y last r2 =>
    if noWordAhead r2 then some ((d, m, y), last, r2) else none) (dayOptions s)

/-- `SELL_RE` at the current position: `(?i)(SELL|VERKAUF)\b`. -/
def trySell (s : List Char) : Option Unit :=
  match matchCI (str "SELL") s with
  | some r => if noWordAhead r then some () else none
  | none =>
    match matchCI (str "VERKAUF") s with
    | some r => if noWordAhead r then some () else none
    | none => none

/-- `YEAR_RE` at the current position: `(20[0-9]{2})` with `\b` on both
sides. -/
def tryYear (s : List Char) : Option (Nat × Char × List Char) :=
  match s with
  | y0 :: y1 :: y2 :: y3 :: rest =>
    if y0 == '2' && y1 == '0' && y2.isDigit && y3.isDigit && noWordAhead rest then
      some (2000 + 10 * digVal y2 + digVal y3, y3, rest)
    else none
  | _ => none

/-- `ISIN_REGEX` at the current position: 12 characters (2 upper letters, 9
upper alphanumerics, 1 digit) with `\b` on both sides. -/
def tryIsinShape (s : List Char) : Option (List Char × Char × List Char) :=
  let cand := s.take 12
  let rest := s.drop 12
  if cand.length = 12 && (cand.take 2).all Char.isUpper &&
      ((cand.drop 2).take 9).all (fun c => c.isUpper || c.isDigit) &&
      (cand.drop 11).all Char.isDigit && noWordAhead rest then
    some (cand, cand.getLastD ' ', rest)
  else none

/-- Take at most `n` leading characters satisfying `p`. -/
def takeWhileN (p : Char → Bool) : Nat → List Char → List Char
  | 0, _ => []
  | _, [] => []
  | n + 1, c :: cs => if p c then c :: takeWhileN p n cs else []

/-- `IBAN_RE` at the current position:
`(?i)IBAN\b[:\s]*([A-Z]{2}[A-Z0-9\s]{8,40})`; under `(?i)` the classes also
match lowercase letters.  The class run is greedy and capped at 40. -/
def tryIban (s : List Char) : Option (List Char) :=
  (matchCI (str "IBAN") s).bind fun r =>
    if noWordAhead r then
      let r2 := r.dropWhile fun c => c == ':' || isRustWs c
      match r2 with
      | a :: b :: rest =>
        if a.isAlpha && b.isAlpha then
          let run := takeWhileN (fun c => c.isAlphanum || isRustWs c) 40 rest
          if run.length < 8 then none else some (a :: b :: run)
        else none
      | _ => none
    else none

/-- `POSITION_RE` at the current position: literal `POSITION`, rest of the
line, a newline, and a nonempty capture up to the next newline. -/
def tryPosition (s : List Char) : Option (List Char) :=
  (matchLit (str "POSITION") s).bind fun r =>
    match r.dropWhile (fun c => !(c == '\n')) with
    | _ :: r2 =>
      let cap := r2.takeWhile fun c => !(c == '\n')
      if cap.isEmpty then none else some cap
    | [] => none

/-- The backtracking `\s+` of `TRANSFER_RE`: try consuming `j` whitespace
characters, longest first; the lazy `(.+?)(?:\n|$)` capture is then the
nonempty run up to the next newline or the end. -/
def transferJ : Nat → List Char → Option (List Char)
  | 0, _ => none
  | j + 1, rest =>
    let u := rest.drop (j + 1)
    let cap := u.takeWhile fun c => !(c == '\n')
    if cap.isEmpty then transferJ j rest else some cap

/-- `TRANSFER_RE` at the current position: literal
`Depottransfer eingegangen`, whitespace, capture to end of line. -/
def tryTransfer (s : List Char) : Option (List Char) :=
  (matchLit (str "Depottransfer eingegangen") s).bind fun rest =>
    transferJ (rest.takeWhile isRustWs).length rest

-- ### The date cascade (`extract_date`, parser.rs lines 412-472)

/-- Step 1: `TEXTUAL_RANGE_RE.captures(text)` (first match). -/
def findTextualRange (text : List Char) : Option (Nat × List Char × Nat) :=
  findFrom tryTextualRange true none text

/-- Step 2: `NUMERIC_RANGE_RE.captures(text)` (first match). -/
def findNumericRange (text : List Char) : Option (List Char) :=
  findFrom tryNumericRange true none text

/-- `extract_date`: the six-step cascade.  Steps 1 and 2 return the parse of
the first match even when that parse fails (the `return` in parser.rs lines
413-423); steps 3-6 skip unparsable matches via `filter_map`. -/
def extract_date (text : List Char) : Option CalDate :=
  match findTextualRange text with
  | some (d, m, y) => parse_textual_date_components d m y
  | none =>
  match findNumericRange text with
  | some cap2 => parse_numeric_date_component cap2
  | none =>
  match findMapIter tryTextualDatum true
      (fun (t : Nat × List Char × Nat) => parse_textual_date_components t.1 t.2.1 t.2.2)
      (text.length + 1) none text with
  | some date => some date
  | none =>
  match findMapIter tryDateRe true parse_numeric_date (text.length + 1) none text with
  | some date => some date
  | none =>
  match findMapIter tryAnyDate true parse_numeric_date (text.length + 1) none text with
  | some date => some date
  | none =>
    findMapIter tryTextualDate true
      (fun (t : Nat × List Char × Nat) => parse_textual_date_components t.1 t.2.1 t.2.2)
      (text.length + 1) none text

-- ### Identifier validation (the `isin` crate's `ISIN::from_str`)

/-- The base-36 digit expansion of a character (digits to one decimal digit,
letters to two). -/
def charDigits (c : Char) : List Nat :=
  if c.isDigit then [digVal c]
  else [(c.toNat - 55) / 10, (c.toNat - 55) % 10]

/-- The ISO 6166 Luhn sum: starting from the rightmost digit of the
expansion of the first 11 characters, double every second digit (the
rightmost first), sum the decimal digits of the results. -/
def luhnSum : Bool → List Nat → Nat
  | _, [] => 0
  | doubled, d :: ds =>
    (if doubled then (if 5 ≤ d then 2 * d - 9 else 2 * d) else d) + luhnSum (!doubled) ds

/-- `ISIN::from_str(_).is_ok()`: shape (2 uppercase letters, 9 uppercase
alphanumerics, 1 digit) plus check-digit verification. -/
def isValidISIN (s : List Char) : Bool :=
  s.length = 12 && (s.take 2).all Char.isUpper &&
    ((s.drop 2).take 9).all (fun c => c.isUpper || c.isDigit) &&
    (s.drop 11).all Char.isDigit &&
    (let payload := (s.take 11).map charDigits
     let sum := luhnSum true payload.flatten.reverse
     (s.drop 11).all fun c => digVal c = (10 - sum % 10) % 10)

-- ### IBAN validation (parser.rs lines 539-602)

/-- `is_valid_iban`: length 15-34, alphanumeric, two letters then two
digits, and mod-97 remainder 1 after moving the first four characters to
the end and expanding letters to two-digit values. -/
def is_valid_iban (iban : List Char) : Bool :=
  (15 ≤ iban.length && iban.length ≤ 34) &&
  iban.all Char.isAlphanum &&
  (match iban with
   | a :: b :: c :: d :: _ => a.isAlpha && b.isAlpha && c.isDigit && d.isDigit
   | _ => false) &&
  ((iban.drop 4 ++ iban.take 4).foldl
    (fun rem ch =>
      if ch.isDigit then (rem * 10 + digVal ch) % 97
      else ((rem * 10 + (ch.toNat - 65 + 10) / 10) % 97 * 10 +
        (ch.toNat - 65 + 10) % 10) % 97)
    0) = 1

/-- The descending prefix-length loop of `extract_iban` (longest valid
prefix from `min(len, 34)` down to 15). -/
def ibanLoop (upper : List Char) : Nat → Option (List Char)
  | 0 => none
  | len + 1 =>
    if len + 1 < 15 then none
    else if is_valid_iban (upper.take (len + 1)) then some (upper.take (len + 1))
    else ibanLoop upper len

/-- `extract_iban` (parser.rs lines 539-563). -/
def extract_iban (text : List Char) : Option (List Char) :=
  (findFrom tryIban true none text).bind fun raw =>
    let cleaned := raw.filter fun c => !(isRustWs c)
    if cleaned.length < 15 then none
    else if !(cleaned.all Char.isAlphanum) then none
    else
      let upper := cleaned.map Char.toUpper
      ibanLoop upper (min upper.length 34)

-- ### Identifier and asset extraction (parser.rs lines 182-258)

/-- `ISIN_REGEX.captures_iter(line)` with checksum filtering: the first
shape-match that passes `ISIN::from_str` (invalid candidates are skipped and
the scan restarts after them). -/
def findValidIsinAux : Nat → Option Char → List Char → Option (List Char)
  | 0, _, _ => none
  | fuel + 1, prev, s =>
    match findFrom tryIsinShape true prev s with
    | none => none
    | some (cand, last, rest) =>
      if isValidISIN cand then some cand
      else findValidIsinAux fuel (some last) rest

def findValidIsin (line : List Char) : Option (List Char) :=
  findValidIsinAux (line.length + 1) none line

/-- `ISIN_REGEX.is_match(line)`. -/
def isinShapeMatch (line : List Char) : Bool :=
  (findFrom tryIsinShape true none line).isSome

/-- The conditions on a candidate asset line following an embedded
identifier (parser.rs lines 203-216); `after` is already trimmed. -/
def afterLineOk (after : List Char) : Bool :=
  !(after.isEmpty) &&
  !(hasSub after (str "ISIN")) &&
  !(isinShapeMatch after) &&
  decide (3 < byteLen after) &&
  !(hasSub (rustToLower after) (str "gesamt")) &&
  !(eqIgnoreCase (trimWs after) (str "eur")) &&
  !(startsWithStr (rustToLower after) (str "betrag")) &&
  !(hasSub after (str "Stk.")) &&
  !(after.all Char.isDigit) &&
  !(startsWithStr (rustToLower after) (str "datum")) &&
  !(startsWithStr (rustToLower after) (str "date"))

/-- The conditions on a candidate asset line preceding an identifier on its
own line (parser.rs lines 228-241); `before` is already trimmed. -/
def beforeLineOk (before : List Char) : Bool :=
  !(before.isEmpty) &&
  !(hasSub before (str "ISIN")) &&
  !(isinShapeMatch before) &&
  decide (3 < byteLen before) &&
  !(before.all Char.isDigit) &&
  !(hasSub (rustToLower before) (str "gesamt")) &&
  !(eqIgnoreCase (trimWs before) (str "eur")) &&
  !(startsWithStr (rustToLower before) (str "betrag")) &&
  !(startsWithStr before (str "POSITION")) &&
  !(hasSub (rustToLower before) (str "anzahl")) &&
  !(hasSub before (str "Stk.")) &&
  !(startsWithStr (rustToLower before) (str "datum")) &&
  !(startsWithStr (rustToLower before) (str "date"))

/-- The `for offset in 1..=2` search of the lines after an embedded
identifier (parser.rs lines 201-221). -/
def afterSearch (lines : List (List Char)) (i : Nat) : Option (List Char) :=
  match lines.get? (i + 1) with
  | some l =>
    if afterLineOk (trimWs l) then some (trimWs l)
    else
      match lines.get? (i + 2) with
      | some l2 => if afterLineOk (trimWs l2) then some (trimWs l2) else none
      | none => none
  | none =>
    match lines.get? (i + 2) with
    | some l2 => if afterLineOk (trimWs l2) then some (trimWs l2) else none
    | none => none

/-- One iteration of the preceding-line loop: the candidate at `offset`
(skipped when the offset exceeds the index; parser.rs lines 225-227). -/
def beforeCand (lines : List (List Char)) (i off : Nat) : Option (List Char) :=
  if off ≤ i then
    match lines.get? (i - off) with
    | some l => if beforeLineOk (trimWs l) then some (trimWs l) else none
    | none => none
  else none

/-- The `for offset in (1..=3).rev()` search of the lines before an
identifier on its own line: offsets 3, 2, 1 in that order, skipping offsets
larger than the index (parser.rs lines 224-247). -/
def beforeSearch (lines : List (List Char)) (i : Nat) : Option (List Char) :=
  match beforeCand lines i 3 with
  | some a => some a
  | none =>
    match beforeCand lines i 2 with
    | some a => some a
    | none => beforeCand lines i 1

/-- The asset derivation once a valid identifier `cand` is found in `line`
at index `i` (parser.rs lines 197-250). -/
def assetFor (lines : List (List Char)) (i : Nat) (line cand : List Char) :
    List Char :=
  let fromAfter := if trimWs line ≠ cand then afterSearch lines i else none
  match fromAfter with
  | some a => a
  | none =>
    match beforeSearch lines i with
    | some b => b
    | none => cand

/-- The line loop of parser.rs lines 187-258: skip VAT lines, stop at the
first line with a checksum-valid identifier. -/
def scanGo (all : List (List Char)) : Nat → List (List Char) →
    Option (List Char × List Char)
  | _, [] => none
  | i, line :: rest =>
    if hasSub line (str "Umsatzsteuer") || hasSub line (str "VAT") then
      scanGo all (i + 1) rest
    else
      match findValidIsin line with
      | some cand => some (cand, assetFor all i line cand)
      | none => scanGo all (i + 1) rest

/-- The identifier + asset extraction over the whole text. -/
def scanIsinAsset (text : List Char) : Option (List Char × List Char) :=
  scanGo (rustLines text) 0 (rustLines text)

-- ### Document-type detection and the remaining record assembly

/-- The ordered keyword table of parser.rs lines 141-167. -/
def typeTable : List (List Char × List Char) :=
  [(str "WERTPAPIERABRECHNUNG SPARPLAN", str "Kauf_Sparplan"),
   (str "WERTPAPIERABRECHNUNG SAVEBACK", str "Kauf_Saveback"),
   (str "WERTPAPIERABRECHNUNG", str "Kauf"),
   (str "KOSTENINFORMATION ZUM SAVE-BACK", str "Kosteninformation_Saveback"),
   (str "KOSTENINFORMATION ZUM SAVE", str "Kosteninformation_Saveback"),
   (str "EX-POST KOSTENINFORMATION", str "Ex_Post_Kosteninformation"),
   (str "JAHRESSTEUERBESCHEINIGUNG", str "Jahressteuerbescheinigung"),
   (str "STEUERREPORT", str "Steuerreport"),
   (str "KONTOAUSZUG", str "Kontoauszug"),
   (str "DIVIDENDE", str "Dividende"),
   (str "ZINSEN", str "Zinsen"),
   (str "ZINSZAHLUNG", str "Zinszahlung"),
   (str "Interest Payout", str "Zinsen"),
   (str "Kapitalmaßnahme", str "Kapitalmaßnahme"),
   (str "Savings Plan Execution", str "Kauf_Sparplan"),
   (str "Securities Settlement", str "Kauf"),
   (str "DEPOTTRANSFER", str "Depottransfer"),
   (str "DEPOTTRANSFER EINGEGANGEN", str "Depottransfer"),
   (str "DEPOTAUSZUG", str "Depotauszug"),
   (str "STEUERLICHE OPTIMIERUNG", str "Steuerliche_Optimierung"),
   (str "Depotauszug", str "Depotauszug"),
   (str "Steuerliche Optimierung", str "Steuerliche_Optimierung")]

/-- The first-match keyword classification (parser.rs lines 168-176),
including the sell-side correction of lines 178-180. -/
def detectType (text : List Char) : List Char :=
  let up := rustToUpper text
  let dt :=
    match typeTable.find? (fun p => hasSub up (rustToUpper p.1)) with
    | some p => p.2
    | none => str "Unbekannt"
  if dt = str "Kauf" && (findFrom trySell true none text).isSome then str "Verkauf"
  else dt

/-- The summary-document pass (parser.rs lines 260-285): flags and the
ordered sentinel list, in first-occurrence order. -/
def summaryFlags (text : List Char) : Bool × Bool × List (List Char) :=
  (rustLines text).foldl
    (fun acc line =>
      let lower := rustToLower line
      let acc :=
        if hasSub lower (str "cash zinsen") && !acc.1 then
          (true, acc.2.1, acc.2.2 ++ [str "Guthaben_Zinsen"])
        else acc
      if hasSub lower (str "geldmarkt dividende") && !acc.2.1 then
        (acc.1, true, acc.2.2 ++ [str "Geldmarkt_Dividende"])
      else acc)
    (false, false, [])

/-- Rust `Vec::join("_und_")`. -/
def joinUnd : List (List Char) → List Char
  | [] => []
  | [x] => x
  | x :: y :: rest => x ++ str "_und_" ++ joinUnd (y :: rest)

/-- The summary override (parser.rs lines 277-285). -/
def summaryFix (dt : List Char) (isin : Option (List Char))
    (asset : Option (List Char)) (text : List Char) :
    List Char × Option (List Char) :=
  let (fz, fd, sentinels) := summaryFlags text
  if isin.isNone && asset.isNone && (fz || fd) then
    (if fz && fd then str "Zinsen_und_Dividende"
     else if fz then str "Zinsen"
     else if fd then str "Dividende"
     else str "Unbekannt",
     some (joinUnd sentinels))
  else (dt, asset)

/-- The fallback block (parser.rs lines 287-308): POSITION line, then the
interest/dividend balance sentinel, then the final balance sentinel. -/
def fallbackAsset (dt : List Char) (isin : Option (List Char))
    (asset : Option (List Char)) (text : List Char) : Option (List Char) :=
  match asset with
  | some a => some a
  | none =>
    let asset1 :=
      match findFrom tryPosition false none text with
      | some cap => some (trimWs cap)
      | none => none
    let asset2 :=
      match asset1 with
      | some a => some a
      | none =>
        if (dt = str "Zinsen" || dt = str "Zinszahlung" || dt = str "Dividende") &&
            isin.isNone then
          some (str "Guthaben")
        else none
    match asset2 with
    | some a => some a
    | none => some (str "Guthaben")

/-- One step of the fold over the referenced years (parser.rs lines
337-346): the year before the document year replaces the accumulator, any
other year raises it to the maximum. -/
def yearStep (docYear : Nat) (acc : Option Nat) (year : Nat) : Option Nat :=
  if year = docYear - 1 then some year
  else
    match acc with
    | some existing => some (max existing year)
    | none => some year

/-- The left fold over the in-range years (parser.rs lines 332-351). -/
def yearFold (years : List Nat) (docYear : Nat) : Option Nat :=
  years.foldl (yearStep docYear) none

/-- All `YEAR_RE` matches of the text, parsed and filtered to
`[2000, docYear]`. -/
def yearsInRange (text : List Char) (docYear : Nat) : List Nat :=
  (collectIter tryYear true (text.length + 1) none text).filter
    fun y => 2000 ≤ y && y ≤ docYear

/-- The referenced reporting year of the statutory categories
(parser.rs lines 332-351): the fold, then `docYear - 1` when at least 2000,
then `docYear`. -/
def referencedYear (text : List Char) (docYear : Nat) : Nat :=
  match yearFold (yearsInRange text docYear) docYear with
  | some y => y
  | none => if 2000 ≤ docYear - 1 then docYear - 1 else docYear

/-- The category-specific overrides (parser.rs lines 310-353), applied in
source order. -/
def typeOverrides (dt : List Char) (isin : Option (List Char))
    (asset : Option (List Char)) (date : CalDate) (text : List Char) :
    Option (List Char) × Option (List Char) :=
  let asset :=
    if dt = str "Depottransfer" then
      match findFrom tryTransfer false none text with
      | some cap => some (trimWs cap)
      | none => asset
    else asset
  let asset := if dt = str "Depotauszug" then some (str "Depot") else asset
  let asset := if dt = str "Steuerliche_Optimierung" then some (str "Steuer") else asset
  let isin := if dt = str "Kontoauszug" then none else isin
  let asset :=
    if dt = str "Kontoauszug" then some ((extract_iban text).getD (str "Konto"))
    else asset
  let asset :=
    if dt = str "Kosteninformation_Saveback" ∨ dt = str "Ex_Post_Kosteninformation" ∨
        dt = str "Jahressteuerbescheinigung" ∨ dt = str "Steuerreport" then
      some (natDigits (referencedYear text date.year))
    else asset
  (isin, asset)

/-- The final validation (parser.rs lines 355-363). -/
def validateAsset (asset : Option (List Char)) : List Char :=
  let finalAsset := asset.getD (str "Guthaben")
  if (trimWs finalAsset).isEmpty = true ∨ byteLen finalAsset > 500 then str "Guthaben"
  else finalAsset

/-- The record construction after the date has been validated
(parser.rs lines 140-370). -/
def mkRecord (date : CalDate) (text : List Char) : PdfData :=
  let dt := detectType text
  let scan := scanIsinAsset text
  let isin0 := scan.map Prod.fst
  let asset0 := scan.map Prod.snd
  let dt2 := (summaryFix dt isin0 asset0 text).1
  let asset1 := (summaryFix dt isin0 asset0 text).2
  let asset2 := fallbackAsset dt2 isin0 asset1 text
  let isin3 := (typeOverrides dt2 isin0 asset2 date text).1
  let asset3 := (typeOverrides dt2 isin0 asset2 date text).2
  { date := date, doc_type := dt2, isin := isin3, asset := validateAsset asset3 }

/-- `parse_pdf_data` (parser.rs lines 125-371).  `currentYear` stands for
`chrono::Local::now().year()`. -/
def parse_pdf_data (currentYear : Nat) (text : List Char) : Option PdfData :=
  if byteLen text > 1000000 then none
  else
    match extract_date text with
    | none => none
    | some date =>
      if date.year < 2000 ∨ currentYear + 5 < date.year then none
      else some (mkRecord date text)

-- ### Claims C7 and C3

/-- Claim C7 (code bug): in cascade step 5 the capture of `ANY_DATE_RE` is a
single ten-character date, so the range-splitting branch of
`parse_numeric_date` (parser.rs lines 479-486) never fires there, and for a
keyword-less date range the extracted date is the FIRST component, not the
second one the claim states.  The second conjunct shows the unreachable
branch would indeed pick the second component had the whole range been
passed, which is the evident intent. -/
theorem C7_range_first_component :
    extract_date (str "01.01.2024 - 05.01.2024") = some ⟨2024, 1, 1⟩ ∧
    parse_numeric_date (str "01.01.2024 - 05.01.2024") = some ⟨2024, 1, 5⟩ := by
  refine ⟨by decide, by decide⟩

theorem byteLen_append (a b : List Char) :
    byteLen (a ++ b) = byteLen a + byteLen b := by
  simp [byteLen]

theorem byteLen_replicate (n : Nat) (c : Char) :
    byteLen (List.replicate n c) = n * c.utf8Size := by
  simp [byteLen, List.map_replicate, List.sum_replicate, smul_eq_mul]

/-- A four-byte character. -/
def bigPad : Char := Char.ofNat 0x10348

/-- A text of 1,000,032 BYTES but only 250,032 characters, whose first line
carries a textual date range: it separates the byte reading of the 1,000,000
DoS ceiling from the character reading of claim C3. -/
def bigText : List Char :=
  str "DATUM 01 Jan 2024 - 02 Jan 2024\n" ++ List.replicate 250000 bigPad

theorem bigText_byteLen : byteLen bigText = 1000032 := by
  have h1 : byteLen (str "DATUM 01 Jan 2024 - 02 Jan 2024\n") = 32 := by decide
  have h2 : Char.utf8Size bigPad = 4 := by decide
  unfold bigText
  rw [byteLen_append, byteLen_replicate, h1, h2]

theorem bigText_date : extract_date bigText = some ⟨2024, 1, 2⟩ := by
  rfl

/-- Claim C3 counterexample: `parse_pdf_data` rejects `bigText` although the
text has no more than 1,000,000 characters, a date is found by the cascade,
and its year is in range -- the size ceiling is applied to `str::len`
(bytes), not characters. -/
theorem C3_cex_bytes_vs_chars :
    parse_pdf_data 2025 bigText = none ∧
    ¬(bigText.length > 1000000 ∨ extract_date bigText = none ∨
      ∃ d, extract_date bigText = some d ∧ (d.year < 2000 ∨ 2025 + 5 < d.year)) := by
  have hgt : byteLen bigText > 1000000 := by
    rw [bigText_byteLen]
    omega
  constructor
  · unfold parse_pdf_data
    rw [if_pos hgt]
  · have hlen : bigText.length = 250032 := by
      have h1 : (str "DATUM 01 Jan 2024 - 02 Jan 2024\n").length = 32 := by decide
      unfold bigText
      rw [List.length_append, List.length_replicate, h1]
    intro h
    rcases h with h | h | ⟨d, hd, hy⟩
    · rw [hlen] at h
      omega
    · rw [bigText_date] at h
      exact absurd h (by simp)
    · rw [bigText_date] at hd
      injection hd with hd
      rw [← hd] at hy
      rcases hy with hy | hy <;> simp at hy

/-- Claim C3 (amended): `parse_pdf_data` returns `none` exactly when the
text exceeds 1,000,000 BYTES (UTF-8 length, not characters), or no date is
found by any of the six cascade steps, or the found date's year lies
outside `[2000, current_year + 5]`; in every other case it returns a record
built from the fallback values. -/
theorem C3_parse_rejects_iff (currentYear : Nat) (text : List Char) :
    parse_pdf_data currentYear text = none ↔
      byteLen text > 1000000 ∨ extract_date text = none ∨
        ∃ d, extract_date text = some d ∧
          (d.year < 2000 ∨ currentYear + 5 < d.year) := by
  unfold parse_pdf_data
  by_cases hb : byteLen text > 1000000
  · rw [if_pos hb]
    simp [hb]
  · rw [if_neg hb]
    rcases hd : extract_date text with _ | d
    · simp
    · dsimp only
      by_cases hy : d.year < 2000 ∨ currentYear + 5 < d.year
      · rw [if_pos hy]
        constructor
        · intro _
          exact Or.inr (Or.inr ⟨d, rfl, hy⟩)
        · intro _
          rfl
      · rw [if_neg hy]
        constructor
        · intro hcontra
          exact absurd hcontra (by simp)
        · rintro (h | h | ⟨d', hd', hy'⟩)
          · exact absurd h hb
          · exact absurd h (by simp)
          · injection hd' with hd'
            rw [← hd'] at hy'
            exact absurd hy' hy

-- ### Claim C5: the statutory-category year label

theorem utf8Size_digitChar (n : Nat) : (digitChar n).utf8Size = 1 := by
  unfold digitChar
  split <;> decide

theorem byteLen_eq_length_of_unit {s : List Char}
    (h : ∀ c ∈ s, c.utf8Size = 1) : byteLen s = s.length := by
  induction s with
  | nil => rfl
  | cons a t ih =>
    rw [byteLen_cons, h a (List.mem_cons_self _ _), List.length_cons,
      ih fun c hc => h c (List.mem_cons_of_mem _ hc)]
    omega

theorem natDigitsAux_length : ∀ (fuel n k : Nat), n < fuel → n < 10 ^ k →
    1 ≤ k → (natDigitsAux fuel n).length ≤ k := by
  intro fuel
  induction fuel with
  | zero => intro n k h; omega
  | succ f ih =>
    intro n k hf hk h1
    unfold natDigitsAux
    by_cases hn : n < 10
    · rw [if_pos hn]
      simpa using h1
    · rw [if_neg hn]
      rw [List.length_append]
      have hk2 : 2 ≤ k := by
        by_contra hcon
        have : k = 1 := by omega
        subst this
        simp at hk
        omega
      have hdiv : n / 10 < 10 ^ (k - 1) := by
        rw [Nat.div_lt_iff_lt_mul (by omega)]
        calc n < 10 ^ k := hk
          _ = 10 ^ (k - 1) * 10 := by
            rw [← pow_succ]
            congr 1
            omega
      have hfuel : n / 10 < f := by
        have h10 : n / 10 < n := Nat.div_lt_self (by omega) (by omega)
        omega
      have := ih (n / 10) (k - 1) hfuel hdiv (by omega)
      simp only [List.length_singleton]
      omega

theorem natDigits_length_le_four {n : Nat} (h : n ≤ 9999) :
    (natDigits n).length ≤ 4 :=
  natDigitsAux_length (n + 1) n 4 (by omega) (by omega) (by omega)

theorem dropWhile_eq_self_of_all {p : Char → Bool} {s : List Char}
    (h : ∀ c ∈ s, p c = false) : s.dropWhile p = s := by
  cases s with
  | nil => rfl
  | cons a t =>
    rw [List.dropWhile_cons, if_neg (by simp [h a (List.mem_cons_self _ _)])]

theorem trimWs_natDigits (n : Nat) : trimWs (natDigits n) = natDigits n := by
  unfold trimWs
  have hd : ∀ c ∈ natDigits n, isRustWs c = false := by
    intro c hc
    rcases mem_natDigitsAux _ _ hc with ⟨m, hm⟩
    subst hm
    unfold digitChar
    split <;> decide
  rw [dropWhile_eq_self_of_all hd,
    dropWhile_eq_self_of_all (fun c hc => hd c (List.mem_reverse.mp hc)),
    List.reverse_reverse]

theorem validateAsset_natDigits {y : Nat} (hy : y ≤ 9999) :
    validateAsset (some (natDigits y)) = natDigits y := by
  unfold validateAsset
  rw [Option.getD_some, if_neg]
  intro h
  rcases h with h1 | h1
  · rw [trimWs_natDigits] at h1
    exact natDigits_ne_nil y (List.isEmpty_iff.mp h1)
  · rw [byteLen_eq_length_of_unit (fun c hc => by
      rcases mem_natDigitsAux _ _ hc with ⟨m, hm⟩
      subst hm
      exact utf8Size_digitChar m)] at h1
    have := natDigits_length_le_four hy
    omega

theorem mem_yearsInRange {text : List Char} {dy z : Nat}
    (h : z ∈ yearsInRange text dy) : 2000 ≤ z ∧ z ≤ dy := by
  unfold yearsInRange at h
  have := List.of_mem_filter h
  simp only [Bool.and_eq_true, decide_eq_true_eq] at this
  exact this

theorem yearStep_some (dy : Nat) (acc : Option Nat) (y : Nat) :
    ∃ r, yearStep dy acc y = some r := by
  unfold yearStep
  by_cases hy : y = dy - 1
  · exact ⟨y, if_pos hy⟩
  · rw [if_neg hy]
    rcases acc with _ | a
    · exact ⟨y, rfl⟩
    · exact ⟨max a y, rfl⟩

theorem yearFold_bound {dy : Nat} : ∀ (ys : List Nat) (acc : Option Nat) (r : Nat),
    (∀ z ∈ ys, z ≤ dy) → (∀ a, acc = some a → a ≤ dy) →
    ys.foldl (yearStep dy) acc = some r → r ≤ dy := by
  intro ys
  induction ys with
  | nil =>
    intro acc r _ hacc hr
    exact hacc r hr
  | cons y t ih =>
    intro acc r hz hacc hr
    rw [List.foldl_cons] at hr
    refine ih _ r (fun z hzt => hz z (List.mem_cons_of_mem _ hzt)) ?_ hr
    intro a ha
    unfold yearStep at ha
    have hy := hz y (List.mem_cons_self _ _)
    by_cases hyd : y = dy - 1
    · rw [if_pos hyd] at ha
      injection ha with ha
      omega
    · rw [if_neg hyd] at ha
      rcases acc with _ | b
      · injection ha with ha
        omega
      · injection ha with ha
        have := hacc b rfl
        rw [← ha]
        simp only [max_le_iff]
        omega

theorem yearFold_stay {dy : Nat} : ∀ (ys : List Nat),
    (∀ z ∈ ys, z ≤ dy) → dy ∉ ys →
    ys.foldl (yearStep dy) (some (dy - 1)) = some (dy - 1) := by
  intro ys
  induction ys with
  | nil => intro _ _; rfl
  | cons y t ih =>
    intro hz hmem
    rw [List.foldl_cons]
    have hy := hz y (List.mem_cons_self _ _)
    have hyne : y ≠ dy := fun he => hmem (he ▸ List.mem_cons_self _ _)
    have hstep : yearStep dy (some (dy - 1)) y = some (dy - 1) := by
      unfold yearStep
      by_cases hyd : y = dy - 1
      · rw [if_pos hyd, hyd]
      · rw [if_neg hyd]
        dsimp only
        have hmax : max (dy - 1) y = dy - 1 := by omega
        rw [hmax]
    rw [hstep]
    exact ih (fun z hzt => hz z (List.mem_cons_of_mem _ hzt))
      (fun hc => hmem (List.mem_cons_of_mem _ hc))

theorem yearFold_target {dy : Nat} : ∀ (ys : List Nat) (acc : Option Nat),
    (∀ z ∈ ys, z ≤ dy) → dy ∉ ys → dy - 1 ∈ ys →
    ys.foldl (yearStep dy) acc = some (dy - 1) := by
  intro ys
  induction ys with
  | nil => intro acc _ _ h; simp at h
  | cons y t ih =>
    intro acc hz hmem htar
    rw [List.foldl_cons]
    by_cases hyd : y = dy - 1
    · have hstep : yearStep dy acc y = some (dy - 1) := by
        unfold yearStep
        rw [if_pos hyd, hyd]
      rw [hstep]
      exact yearFold_stay t (fun z hzt => hz z (List.mem_cons_of_mem _ hzt))
        (fun hc => hmem (List.mem_cons_of_mem _ hc))
    · have htart : dy - 1 ∈ t := by
        rcases List.mem_cons.mp htar with h | h
        · exact absurd h.symm hyd
        · exact h
      exact ih _ (fun z hzt => hz z (List.mem_cons_of_mem _ hzt))
        (fun hc => hmem (List.mem_cons_of_mem _ hc)) htart

theorem yearFold_ub {dy : Nat} : ∀ (ys : List Nat) (acc : Option Nat) (r : Nat),
    dy - 1 ∉ ys → ys.foldl (yearStep dy) acc = some r →
    (∀ a, acc = some a → a ≤ r) ∧ ∀ z ∈ ys, z ≤ r := by
  intro ys
  induction ys with
  | nil =>
    intro acc r _ hr
    refine ⟨fun a ha => ?_, by simp⟩
    rw [ha] at hr
    injection hr with hr
    omega
  | cons y t ih =>
    intro acc r hmem hr
    rw [List.foldl_cons] at hr
    have hyne : y ≠ dy - 1 := fun he => hmem (he ▸ List.mem_cons_self _ _)
    have hmt : dy - 1 ∉ t := fun hc => hmem (List.mem_cons_of_mem _ hc)
    obtain ⟨hacc, hall⟩ := ih _ r hmt hr
    have hstep : ∀ a, yearStep dy acc y = some a → y ≤ a ∧ ∀ b, acc = some b → b ≤ a := by
      intro a ha
      unfold yearStep at ha
      rw [if_neg hyne] at ha
      rcases acc with _ | b
      · injection ha with ha
        exact ⟨by omega, by simp⟩
      · injection ha with ha
        refine ⟨by rw [← ha]; omega, fun b2 hb2 => ?_⟩
        injection hb2 with hb2
        subst hb2
        rw [← ha]
        omega
    rcases yearStep_some dy acc y with ⟨a, hsa⟩
    obtain ⟨hya, haccle⟩ := hstep a hsa
    have haR := hacc a hsa
    refine ⟨fun b hb => le_trans (haccle b hb) haR, ?_⟩
    intro z hzm
    rcases List.mem_cons.mp hzm with h | h
    · subst h
      exact le_trans hya haR
    · exact hall z h

theorem yearFoldl_some {dy : Nat} : ∀ (ys : List Nat) (a : Nat),
    ∃ r, ys.foldl (yearStep dy) (some a) = some r := by
  intro ys
  induction ys with
  | nil => intro a; exact ⟨a, rfl⟩
  | cons y t ih =>
    intro a
    rw [List.foldl_cons]
    rcases yearStep_some dy (some a) y with ⟨b, hb⟩
    rw [hb]
    exact ih b

theorem yearFold_none {dy : Nat} {ys : List Nat}
    (h : ys.foldl (yearStep dy) none = none) : ys = [] := by
  cases ys with
  | nil => rfl
  | cons y t =>
    rw [List.foldl_cons] at h
    rcases yearStep_some dy none y with ⟨b, hb⟩
    rw [hb] at h
    rcases yearFoldl_some t b with ⟨r, hr⟩
    rw [hr] at h
    exact absurd h (by simp)

theorem referencedYear_le (text : List Char) (dy : Nat) :
    referencedYear text dy ≤ dy := by
  unfold referencedYear yearFold
  rcases hf : (yearsInRange text dy).foldl (yearStep dy) none with _ | r
  · dsimp only
    split <;> omega
  · exact yearFold_bound _ none r (fun z hz => (mem_yearsInRange hz).2) (by simp) hf

theorem typeOverrides_statutory {dt : List Char} (isin : Option (List Char))
    (asset : Option (List Char)) (date : CalDate) (text : List Char)
    (hdt : dt = str "Kosteninformation_Saveback" ∨ dt = str "Ex_Post_Kosteninformation" ∨
      dt = str "Jahressteuerbescheinigung" ∨ dt = str "Steuerreport") :
    (typeOverrides dt isin asset date text).2 =
      some (natDigits (referencedYear text date.year)) := by
  have h1 : ¬ dt = str "Depottransfer" := by
    rcases hdt with h | h | h | h <;> (subst h; decide)
  have h2 : ¬ dt = str "Depotauszug" := by
    rcases hdt with h | h | h | h <;> (subst h; decide)
  have h3 : ¬ dt = str "Steuerliche_Optimierung" := by
    rcases hdt with h | h | h | h <;> (subst h; decide)
  have h4 : ¬ dt = str "Kontoauszug" := by
    rcases hdt with h | h | h | h <;> (subst h; decide)
  simp only [typeOverrides, h1, h2, h3, h4, hdt, if_false, if_true, ite_false,
    ite_true, if_neg, not_false_iff]

/-- Inversion of a successful parse: the record is `mkRecord` of the
extracted, range-checked date. -/
theorem parse_some_inv {currentYear : Nat} {text : List Char} {rec : PdfData}
    (h : parse_pdf_data currentYear text = some rec) :
    ∃ d, extract_date text = some d ∧ 2000 ≤ d.year ∧ d.year ≤ currentYear + 5 ∧
      rec = mkRecord d text := by
  unfold parse_pdf_data at h
  by_cases hb : byteLen text > 1000000
  · rw [if_pos hb] at h
    exact absurd h (by simp)
  · rw [if_neg hb] at h
    rcases hd : extract_date text with _ | d
    · rw [hd] at h
      exact absurd h (by simp)
    · rw [hd] at h
      dsimp only at h
      by_cases hy : d.year < 2000 ∨ currentYear + 5 < d.year
      · rw [if_pos hy] at h
        exact absurd h (by simp)
      · rw [if_neg hy] at h
        injection h with h
        push_neg at hy
        exact ⟨d, rfl, by omega, by omega, h.symm⟩

/-- Claim C5 counterexample: in the text below the year 2024 (= document
year − 1) occurs, so the claim demands the label `2024`; but the fold of
parser.rs lines 337-346 lets the later occurrence of 2025 (inside the date
itself) overwrite the already-found 2024, and the code labels the document
`2025`. -/
theorem C5_year_label_cex :
    parse_pdf_data 2025 (str "STEUERREPORT\n2024\nDATUM 2025-12-31\n") =
      some ⟨⟨2025, 12, 31⟩, str "Steuerreport", none, str "2025"⟩ ∧
    2024 ∈ yearsInRange (str "STEUERREPORT\n2024\nDATUM 2025-12-31\n") 2025 ∧
    ¬ (str "2025" = str "2024") := by
  refine ⟨by decide, by decide, by decide⟩

/-- Claim C5 (amended): for every document classified into a statutory
category, the label is the string of the year computed by folding the
in-range years in text order (`yearStep`: a year equal to document year − 1
replaces the accumulator outright, any other year raises the accumulator to
the maximum); consequently document year − 1 is guaranteed to win only when
the document year itself does not occur in the text, the maximum found year
bounds the result when document year − 1 is absent, and with no year found
the label falls back to document year − 1 when at least 2000, else the
document year.  (`currentYear ≤ 9994` keeps all years four digits, as the
real clock does.) -/
theorem C5_statutory_year_label (currentYear : Nat) (text : List Char)
    (rec : PdfData) (hcy : currentYear ≤ 9994)
    (h : parse_pdf_data currentYear text = some rec)
    (hdt : rec.doc_type = str "Kosteninformation_Saveback" ∨
      rec.doc_type = str "Ex_Post_Kosteninformation" ∨
      rec.doc_type = str "Jahressteuerbescheinigung" ∨
      rec.doc_type = str "Steuerreport") :
    rec.asset = natDigits (referencedYear text rec.date.year) ∧
    (rec.date.year - 1 ∈ yearsInRange text rec.date.year →
      rec.date.year ∉ yearsInRange text rec.date.year →
      referencedYear text rec.date.year = rec.date.year - 1) ∧
    (rec.date.year - 1 ∉ yearsInRange text rec.date.year →
      ∀ z ∈ yearsInRange text rec.date.year,
        z ≤ referencedYear text rec.date.year) ∧
    (yearsInRange text rec.date.year = [] →
      referencedYear text rec.date.year =
        if 2000 ≤ rec.date.year - 1 then rec.date.year - 1 else rec.date.year) := by
  obtain ⟨d, _, h2000, hle, hrec⟩ := parse_some_inv h
  subst hrec
  have hdate : (mkRecord d text).date = d := rfl
  rw [hdate]
  have hasset : (mkRecord d text).asset =
      validateAsset ((typeOverrides (mkRecord d text).doc_type
        ((scanIsinAsset text).map Prod.fst)
        (fallbackAsset (mkRecord d text).doc_type ((scanIsinAsset text).map Prod.fst)
          (summaryFix (detectType text) ((scanIsinAsset text).map Prod.fst)
            ((scanIsinAsset text).map Prod.snd) text).2 text)
        d text).2) := rfl
  have hyr : referencedYear text d.year ≤ d.year := referencedYear_le text d.year
  refine ⟨?_, ?_, ?_, ?_⟩
  · rw [hasset, typeOverrides_statutory _ _ _ _ hdt]
    exact validateAsset_natDigits (by omega)
  · intro htar hnot
    unfold referencedYear yearFold
    rw [yearFold_target (yearsInRange text d.year) none
      (fun z hz => (mem_yearsInRange hz).2) hnot htar]
  · intro hnotar z hz
    unfold referencedYear yearFold
    rcases hf : (yearsInRange text d.year).foldl (yearStep d.year) none with _ | r
    · exact absurd (yearFold_none hf ▸ hz) (by simp)
    · exact (yearFold_ub _ none r hnotar hf).2 z hz
  · intro hnil
    unfold referencedYear yearFold
    rw [hnil]
    rfl

/-- Witness for C5: the amended statement instantiated at the repository's
`test_ex_post_kosteninformation_filename` text. -/
theorem C5_statutory_year_label_witness :
    (⟨⟨2025, 7, 25⟩, str "Ex_Post_Kosteninformation", some (str "IE00BF4RFH31"),
        str "2025"⟩ : PdfData).asset =
      natDigits (referencedYear
        (str "EX-POST KOSTENINFORMATION\nDATUM 25.07.2025\nISIN IE00BF4RFH31\nBerichtszeitraum 2025")
        2025) ∧
    (2025 - 1 ∈ yearsInRange
        (str "EX-POST KOSTENINFORMATION\nDATUM 25.07.2025\nISIN IE00BF4RFH31\nBerichtszeitraum 2025")
        2025 →
      2025 ∉ yearsInRange
        (str "EX-POST KOSTENINFORMATION\nDATUM 25.07.2025\nISIN IE00BF4RFH31\nBerichtszeitraum 2025")
        2025 →
      referencedYear
        (str "EX-POST KOSTENINFORMATION\nDATUM 25.07.2025\nISIN IE00BF4RFH31\nBerichtszeitraum 2025")
        2025 = 2025 - 1) ∧
    (2025 - 1 ∉ yearsInRange
        (str "EX-POST KOSTENINFORMATION\nDATUM 25.07.2025\nISIN IE00BF4RFH31\nBerichtszeitraum 2025")
        2025 →
      ∀ z ∈ yearsInRange
        (str "EX-POST KOSTENINFORMATION\nDATUM 25.07.2025\nISIN IE00BF4RFH31\nBerichtszeitraum 2025")
        2025,
        z ≤ referencedYear
          (str "EX-POST KOSTENINFORMATION\nDATUM 25.07.2025\nISIN IE00BF4RFH31\nBerichtszeitraum 2025")
          2025) ∧
    (yearsInRange
        (str "EX-POST KOSTENINFORMATION\nDATUM 25.07.2025\nISIN IE00BF4RFH31\nBerichtszeitraum 2025")
        2025 = [] →
      referencedYear
        (str "EX-POST KOSTENINFORMATION\nDATUM 25.07.2025\nISIN IE00BF4RFH31\nBerichtszeitraum 2025")
        2025 = if 2000 ≤ 2025 - 1 then 2025 - 1 else 2025) :=
  C5_statutory_year_label 2025
    (str "EX-POST KOSTENINFORMATION\nDATUM 25.07.2025\nISIN IE00BF4RFH31\nBerichtszeitraum 2025")
    ⟨⟨2025, 7, 25⟩, str "Ex_Post_Kosteninformation", some (str "IE00BF4RFH31"), str "2025"⟩
    (by omega) (by decide) (Or.inr (Or.inl rfl))


-- ### Claim C6: the preceding-line label search

/-- A passing candidate at `off` makes `beforeCand` return it. -/
theorem beforeCand_some {lines : List (List Char)} {i off : Nat} {l : List Char}
    (hoff : off ≤ i) (hget : lines.get? (i - off) = some l)
    (hok : beforeLineOk (trimWs l) = true) :
    beforeCand lines i off = some (trimWs l) := by
  unfold beforeCand
  rw [if_pos hoff, hget]
  dsimp only
  rw [if_pos hok]

/-- Claim C6 counterexample: the identifier occupies its own line (index 3);
both the line immediately above ("BetaAsset", index 2) and the line three
above ("AlphaAsset", index 0) pass the exclusion rules, and the code picks
the FARTHER one, "AlphaAsset" — nearest-first would pick "BetaAsset". -/
theorem C6_before_search_cex :
    parse_pdf_data 2025
        (str "AlphaAsset\nBBBB\nBetaAsset\nIE00BZ163G84\nDATUM 01.01.2024\n")
      = some ⟨⟨2024, 1, 1⟩, str "Unbekannt", some (str "IE00BZ163G84"),
          str "AlphaAsset"⟩ ∧
    beforeLineOk (str "BetaAsset") = true ∧
    str "AlphaAsset" ≠ str "BetaAsset" :=
  ⟨by decide, by decide, by decide⟩

/-- Claim C6 amended: when the first valid identifier occupies its own
trimmed line, the asset comes from `beforeSearch`, which scans up to three
preceding lines FARTHEST-first (`(1..=3).rev()`): the line three above is
taken whenever it exists and passes the exclusion rules; only when the
offset-3 candidate is absent or excluded is the line two above considered,
and only then the line immediately above; offsets exceeding the index are
skipped, and a candidate is produced at an offset exactly when the line at
that offset exists, the offset fits, and the trimmed line passes
`beforeLineOk`. -/
theorem C6_own_line_search (lines : List (List Char)) (i : Nat) :
    (∀ line cand, trimWs line = cand →
      assetFor lines i line cand = (beforeSearch lines i).getD cand) ∧
    (∀ l3, 3 ≤ i → lines.get? (i - 3) = some l3 →
      beforeLineOk (trimWs l3) = true →
      beforeSearch lines i = some (trimWs l3)) ∧
    (beforeCand lines i 3 = none →
      ∀ l2, 2 ≤ i → lines.get? (i - 2) = some l2 →
        beforeLineOk (trimWs l2) = true →
        beforeSearch lines i = some (trimWs l2)) ∧
    (beforeCand lines i 3 = none → beforeCand lines i 2 = none →
      beforeSearch lines i = beforeCand lines i 1) ∧
    (∀ off a, beforeCand lines i off = some a ↔
      ∃ l, off ≤ i ∧ lines.get? (i - off) = some l ∧
        beforeLineOk (trimWs l) = true ∧ a = trimWs l) := by
  refine ⟨?_, ?_, ?_, ?_, ?_⟩
  · intro line cand h
    unfold assetFor
    rw [if_neg (by simp [h])]
    dsimp only
    cases hb : beforeSearch lines i <;> simp
  · intro l3 h3 hget hok
    unfold beforeSearch
    rw [beforeCand_some h3 hget hok]
  · intro hnone l2 h2 hget hok
    unfold beforeSearch
    rw [hnone, beforeCand_some h2 hget hok]
  · intro h3 h2
    unfold beforeSearch
    rw [h3, h2]
  · intro off a
    constructor
    · intro h
      unfold beforeCand at h
      by_cases hoff : off ≤ i
      · rw [if_pos hoff] at h
        rcases hget : lines.get? (i - off) with _ | l
        · rw [hget] at h
          cases h
        · rw [hget] at h
          dsimp only at h
          by_cases hok : beforeLineOk (trimWs l) = true
          · rw [if_pos hok] at h
            exact ⟨l, hoff, rfl, hok, (Option.some.inj h).symm⟩
          · rw [if_neg hok] at h
            cases h
      · rw [if_neg hoff] at h
        cases h
    · rintro ⟨l, hoff, hget, hok, rfl⟩
      exact beforeCand_some hoff hget hok

/-- A closed instance of the amended claim: at the counterexample lines the
offset-3 candidate "AlphaAsset" passes and is returned. -/
theorem C6_own_line_search_witness :
    beforeSearch
        [str "AlphaAsset", str "BBBB", str "BetaAsset", str "IE00BZ163G84"] 3
      = some (trimWs (str "AlphaAsset")) :=
  (C6_own_line_search
      [str "AlphaAsset", str "BBBB", str "BetaAsset", str "IE00BZ163G84"]
      3).2.1 (str "AlphaAsset") (by decide) (by decide) (by decide)

-- ### Claim C4: checksum validation of the returned identifier

/-- Every candidate returned by the filtered shape scan passes the
checksum. -/
theorem findValidIsinAux_valid :
    ∀ (fuel : Nat) (prev : Option Char) (s cand : List Char),
      findValidIsinAux fuel prev s = some cand → isValidISIN cand = true := by
  intro fuel
  induction fuel with
  | zero => intro prev s cand h; cases h
  | succ n ih =>
    intro prev s cand h
    unfold findValidIsinAux at h
    rcases hf : findFrom tryIsinShape true prev s with _ | ⟨c, last, rest⟩
    · rw [hf] at h
      cases h
    · rw [hf] at h
      dsimp only at h
      by_cases hv : isValidISIN c = true
      · rw [if_pos hv] at h
        cases h
        exact hv
      · rw [if_neg hv] at h
        exact ih (some last) rest cand h

/-- The line loop only stops on a checksum-valid candidate. -/
theorem scanGo_valid :
    ∀ (ls : List (List Char)) (all : List (List Char)) (i : Nat)
      (cand asset : List Char),
      scanGo all i ls = some (cand, asset) → isValidISIN cand = true := by
  intro ls
  induction ls with
  | nil => intro all i cand asset h; cases h
  | cons line rest ih =>
    intro all i cand asset h
    unfold scanGo at h
    by_cases hskip :
        (hasSub line (str "Umsatzsteuer") || hasSub line (str "VAT")) = true
    · rw [if_pos hskip] at h
      exact ih all (i + 1) cand asset h
    · rw [if_neg hskip] at h
      rcases hf : findValidIsin line with _ | c
      · rw [hf] at h
        exact ih all (i + 1) cand asset h
      · rw [hf] at h
        dsimp only at h
        have hc : c = cand := congrArg Prod.fst (Option.some.inj h)
        exact hc ▸ findValidIsinAux_valid (line.length + 1) none line c hf

/-- The identifier component of the record is either cleared or the scanned
candidate. -/
theorem mkRecord_isin_cases (date : CalDate) (text : List Char) :
    (mkRecord date text).isin = none ∨
      ∃ pr, scanIsinAsset text = some pr ∧ (mkRecord date text).isin = some pr.1 := by
  have h : (mkRecord date text).isin =
      (if (summaryFix (detectType text) ((scanIsinAsset text).map Prod.fst)
            ((scanIsinAsset text).map Prod.snd) text).1 = str "Kontoauszug"
       then none else (scanIsinAsset text).map Prod.fst) := rfl
  rw [h]
  split
  · exact Or.inl rfl
  · rcases hscan : scanIsinAsset text with _ | pr
    · exact Or.inl rfl
    · exact Or.inr ⟨pr, rfl, rfl⟩

/-- Claim C4: an identifier present in the returned record always passes
full checksum validation; a shape-matching but checksum-invalid string is
never returned as the identifier. -/
theorem C4_isin_checksum (currentYear : Nat) (text : List Char) (rec : PdfData)
    (s : List Char) (hp : parse_pdf_data currentYear text = some rec)
    (hi : rec.isin = some s) : isValidISIN s = true := by
  obtain ⟨d, _, _, _, hrec⟩ := parse_some_inv hp
  rcases mkRecord_isin_cases d text with hnone | ⟨pr, hscan, hsome⟩
  · rw [hrec, hnone] at hi
    cases hi
  · rw [hrec, hsome] at hi
    have hs : pr.1 = s := Option.some.inj hi
    exact hs ▸ scanGo_valid (rustLines text) (rustLines text) 0 pr.1 pr.2
      (by rw [← hscan]; rfl)

/-- A closed instance of claim C4: the record extracted from a text with a
labeled valid identifier carries it, and it passes the checksum. -/
theorem C4_isin_checksum_witness : isValidISIN (str "IE00BZ163G84") = true :=
  C4_isin_checksum 2025 (str "DATUM 01.01.2024\nISIN IE00BZ163G84\n")
    ⟨⟨2024, 1, 1⟩, str "Unbekannt", some (str "IE00BZ163G84"),
      str "IE00BZ163G84"⟩
    (str "IE00BZ163G84") (by decide) (by decide)

-- ### Claim C8: the account-statement override

/-- A code point below 123 encodes in one UTF-8 byte. -/
theorem utf8Size_of_le (c : Char) (h : c.toNat ≤ 122) : c.utf8Size = 1 := by
  unfold Char.utf8Size
  rw [if_pos]
  rw [UInt32.le_def, BitVec.le_def]
  show c.toNat ≤ 127
  omega

/-- Character equality is code-point equality. -/
theorem char_eq_iff_toNat (c d : Char) : (c = d) ↔ c.toNat = d.toNat := by
  constructor
  · intro h
    rw [h]
  · intro h
    apply Char.ext
    have h2 : c.val.toBitVec = d.val.toBitVec := BitVec.toNat_injective h
    exact UInt32.toBitVec_injective h2

/-- No code point in `[48, 122]` is Unicode whitespace. -/
theorem ws_false_of_range (c : Char) (h1 : 48 ≤ c.toNat) (h2 : c.toNat ≤ 122) :
    isRustWs c = false := by
  have ha : (' ' : Char).toNat = 32 := rfl
  have hb : ('\t' : Char).toNat = 9 := rfl
  have hc : ('\n' : Char).toNat = 10 := rfl
  have hd : ('\r' : Char).toNat = 13 := rfl
  unfold isRustWs
  simp only [Bool.or_eq_false_iff, Bool.and_eq_false_iff, decide_eq_false_iff_not,
    char_eq_iff_toNat, ha, hb, hc, hd]
  omega

/-- ASCII-alphanumeric characters lie in `[48, 122]`. -/
theorem alnum_bounds (c : Char) (h : c.isAlphanum = true) :
    48 ≤ c.toNat ∧ c.toNat ≤ 122 := by
  simp [Char.isAlphanum, Char.isAlpha, Char.isUpper, Char.isLower,
    Char.isDigit] at h
  rcases h with (⟨h1, h2⟩ | ⟨h1, h2⟩) | ⟨h1, h2⟩
  · have g1 : 65 ≤ c.toNat := h1
    have g2 : c.toNat ≤ 90 := h2
    omega
  · have g1 : 97 ≤ c.toNat := h1
    have g2 : c.toNat ≤ 122 := h2
    omega
  · have g1 : 48 ≤ c.toNat := h1
    have g2 : c.toNat ≤ 57 := h2
    omega

/-- The descending prefix loop only returns validated prefixes. -/
theorem ibanLoop_valid (upper : List Char) :
    ∀ (n : Nat) (out : List Char), ibanLoop upper n = some out →
      is_valid_iban out = true := by
  intro n
  induction n with
  | zero => intro out h; cases h
  | succ m ih =>
    intro out h
    unfold ibanLoop at h
    by_cases hlt : m + 1 < 15
    · rw [if_pos hlt] at h
      cases h
    · rw [if_neg hlt] at h
      by_cases hv : is_valid_iban (upper.take (m + 1)) = true
      · rw [if_pos hv] at h
        cases h
        exact hv
      · rw [if_neg hv] at h
        exact ih out h

/-- Whatever `extract_iban` returns passes `is_valid_iban`. -/
theorem extract_iban_valid {text out : List Char}
    (h : extract_iban text = some out) : is_valid_iban out = true := by
  unfold extract_iban at h
  rcases hf : findFrom tryIban true none text with _ | raw
  · rw [hf] at h
    cases h
  · rw [hf] at h
    rw [Option.some_bind] at h
    dsimp only at h
    by_cases h1 : (raw.filter fun c => !(isRustWs c)).length < 15
    · rw [if_pos h1] at h
      cases h
    · rw [if_neg h1] at h
      by_cases h2 :
          (!((raw.filter fun c => !(isRustWs c)).all Char.isAlphanum)) = true
      · rw [if_pos h2] at h
        cases h
      · rw [if_neg h2] at h
        exact ibanLoop_valid _ _ out h

/-- Shape facts of a validated IBAN: length in `[15, 34]`, all
alphanumeric. -/
theorem iban_props {a : List Char} (h : is_valid_iban a = true) :
    15 ≤ a.length ∧ a.length ≤ 34 ∧ ∀ c ∈ a, c.isAlphanum = true := by
  unfold is_valid_iban at h
  simp only [Bool.and_eq_true, decide_eq_true_eq, List.all_eq_true] at h
  exact ⟨h.1.1.1.1, h.1.1.1.2, h.1.1.2⟩

/-- A validated IBAN survives the final asset validation unchanged. -/
theorem validateAsset_iban {a : List Char} (h : is_valid_iban a = true) :
    validateAsset (some a) = a := by
  obtain ⟨h1, h2, hall⟩ := iban_props h
  have hws : ∀ c ∈ a, isRustWs c = false := fun c hc =>
    ws_false_of_range c (alnum_bounds c (hall c hc)).1 (alnum_bounds c (hall c hc)).2
  have htrim : trimWs a = a := by
    unfold trimWs
    rw [dropWhile_eq_self_of_all hws,
      dropWhile_eq_self_of_all (fun c hc => hws c (List.mem_reverse.mp hc)),
      List.reverse_reverse]
  have hbl : byteLen a = a.length :=
    byteLen_eq_length_of_unit fun c hc =>
      utf8Size_of_le c (alnum_bounds c (hall c hc)).2
  unfold validateAsset
  rw [Option.getD_some, if_neg]
  intro hcon
  rcases hcon with hc1 | hc1
  · rw [htrim] at hc1
    have he := List.isEmpty_iff.mp hc1
    rw [he] at h1
    simp at h1
  · rw [hbl] at hc1
    omega

/-- The override pair for the account-statement category: identifier
cleared, asset the extracted IBAN with the "Konto" default. -/
theorem typeOverrides_kontoauszug (isin asset : Option (List Char))
    (date : CalDate) (text : List Char) :
    typeOverrides (str "Kontoauszug") isin asset date text =
      (none, some ((extract_iban text).getD (str "Konto"))) := by
  have h1 : ¬ str "Kontoauszug" = str "Depottransfer" := by decide
  have h2 : ¬ str "Kontoauszug" = str "Depotauszug" := by decide
  have h3 : ¬ str "Kontoauszug" = str "Steuerliche_Optimierung" := by decide
  have h5 : ¬ (str "Kontoauszug" = str "Kosteninformation_Saveback" ∨
      str "Kontoauszug" = str "Ex_Post_Kosteninformation" ∨
      str "Kontoauszug" = str "Jahressteuerbescheinigung" ∨
      str "Kontoauszug" = str "Steuerreport") := by decide
  simp only [typeOverrides, h1, h2, h3, h5, eq_self_iff_true, if_true,
    if_false, ite_true, ite_false, if_neg, not_false_iff]

/-- A record whose detected category is "Kontoauszug" carries no identifier
and the validated IBAN-or-sentinel asset. -/
theorem mkRecord_kontoauszug (d : CalDate) (text : List Char)
    (h : (mkRecord d text).doc_type = str "Kontoauszug") :
    (mkRecord d text).isin = none ∧
    (mkRecord d text).asset =
      validateAsset (some ((extract_iban text).getD (str "Konto"))) := by
  have hdt : (summaryFix (detectType text) ((scanIsinAsset text).map Prod.fst)
      ((scanIsinAsset text).map Prod.snd) text).1 = str "Kontoauszug" := h
  unfold mkRecord
  dsimp only
  rw [hdt, typeOverrides_kontoauszug]
  exact ⟨rfl, rfl⟩

/-- Claim C8: on account statements the identifier is cleared and the label
is the checksum-validated IBAN extracted after the marker, defaulting to the
sentinel "Konto" when none is found. -/
theorem C8_kontoauszug (currentYear : Nat) (text : List Char) (rec : PdfData)
    (hp : parse_pdf_data currentYear text = some rec)
    (hdt : rec.doc_type = str "Kontoauszug") :
    rec.isin = none ∧
    ((extract_iban text = none ∧ rec.asset = str "Konto") ∨
     (extract_iban text = some rec.asset ∧ is_valid_iban rec.asset = true)) := by
  obtain ⟨d, _, _, _, hrec⟩ := parse_some_inv hp
  subst hrec
  obtain ⟨hisin, hasset⟩ := mkRecord_kontoauszug d text hdt
  refine ⟨hisin, ?_⟩
  rcases he : extract_iban text with _ | iban
  · left
    have hre : (mkRecord d text).asset = str "Konto" := by
      rw [hasset, he]
      decide
    exact ⟨rfl, hre⟩
  · right
    have hv := extract_iban_valid he
    have hre : (mkRecord d text).asset = iban := by
      rw [hasset, he, Option.getD_some, validateAsset_iban hv]
    rw [hre]
    exact ⟨rfl, hv⟩

/-- A closed instance of claim C8: an account statement with a labeled IBAN
yields a cleared identifier and the normalized IBAN as the label. -/
theorem C8_kontoauszug_witness :
    (⟨⟨2024, 1, 1⟩, str "Kontoauszug", none,
        str "DE89370400440532013000"⟩ : PdfData).isin = none ∧
    ((extract_iban
          (str "KONTOAUSZUG\nDATUM 01.01.2024\nIBAN: DE89 3704 0044 0532 0130 00\n")
        = none ∧
      (⟨⟨2024, 1, 1⟩, str "Kontoauszug", none,
          str "DE89370400440532013000"⟩ : PdfData).asset = str "Konto") ∨
     (extract_iban
          (str "KONTOAUSZUG\nDATUM 01.01.2024\nIBAN: DE89 3704 0044 0532 0130 00\n")
        = some (⟨⟨2024, 1, 1⟩, str "Kontoauszug", none,
            str "DE89370400440532013000"⟩ : PdfData).asset ∧
      is_valid_iban (⟨⟨2024, 1, 1⟩, str "Kontoauszug", none,
          str "DE89370400440532013000"⟩ : PdfData).asset = true)) :=
  C8_kontoauszug 2025
    (str "KONTOAUSZUG\nDATUM 01.01.2024\nIBAN: DE89 3704 0044 0532 0130 00\n")
    ⟨⟨2024, 1, 1⟩, str "Kontoauszug", none, str "DE89370400440532013000"⟩
    (by decide) (by decide)

-- ### Claim C10: the portfolio-statement override

/-- The override pair for the portfolio-statement category: identifier kept,
asset replaced by the sentinel "Depot". -/
theorem typeOverrides_depotauszug (isin asset : Option (List Char))
    (date : CalDate) (text : List Char) :
    typeOverrides (str "Depotauszug") isin asset date text =
      (isin, some (str "Depot")) := by
  have h1 : ¬ str "Depotauszug" = str "Depottransfer" := by decide
  have h3 : ¬ str "Depotauszug" = str "Steuerliche_Optimierung" := by decide
  have h4 : ¬ str "Depotauszug" = str "Kontoauszug" := by decide
  have h5 : ¬ (str "Depotauszug" = str "Kosteninformation_Saveback" ∨
      str "Depotauszug" = str "Ex_Post_Kosteninformation" ∨
      str "Depotauszug" = str "Jahressteuerbescheinigung" ∨
      str "Depotauszug" = str "Steuerreport") := by decide
  simp only [typeOverrides, h1, h3, h4, h5, eq_self_iff_true, if_true,
    if_false, ite_true, ite_false, if_neg, not_false_iff]

/-- A record whose detected category is "Depotauszug" keeps the scanned
identifier and carries the sentinel asset. -/
theorem mkRecord_depotauszug (d : CalDate) (text : List Char)
    (h : (mkRecord d text).doc_type = str "Depotauszug") :
    (mkRecord d text).isin = (scanIsinAsset text).map Prod.fst ∧
    (mkRecord d text).asset = str "Depot" := by
  have hdt : (summaryFix (detectType text) ((scanIsinAsset text).map Prod.fst)
      ((scanIsinAsset text).map Prod.snd) text).1 = str "Depotauszug" := h
  unfold mkRecord
  dsimp only
  rw [hdt, typeOverrides_depotauszug]
  refine ⟨rfl, ?_⟩
  show validateAsset (some (str "Depot")) = str "Depot"
  decide

/-- A checksum-valid identifier is 12 characters, all alphanumeric. -/
theorem isValidISIN_shape {s : List Char} (h : isValidISIN s = true) :
    s.length = 12 ∧ ∀ c ∈ s, c.isAlphanum = true := by
  unfold isValidISIN at h
  simp only [Bool.and_eq_true, decide_eq_true_eq, List.all_eq_true] at h
  refine ⟨h.1.1.1.1, ?_⟩
  intro c hc
  have hsplit : s = s.take 2 ++ s.drop 2 := (List.take_append_drop 2 s).symm
  rw [hsplit] at hc
  rcases List.mem_append.mp hc with h2 | hd
  · have hu := h.1.1.1.2 c h2
    simp [Char.isAlphanum, Char.isAlpha, hu]
  · have hsplit2 : s.drop 2 = (s.drop 2).take 9 ++ (s.drop 2).drop 9 :=
      (List.take_append_drop 9 (s.drop 2)).symm
    rw [hsplit2] at hd
    rcases List.mem_append.mp hd with hm | hl
    · have hu := h.1.1.2 c hm
      rcases (Bool.or_eq_true _ _).mp hu with hup | hdig
      · simp [Char.isAlphanum, Char.isAlpha, hup]
      · simp [Char.isAlphanum, hdig]
    · have hd11 : (s.drop 2).drop 9 = s.drop 11 := by
        rw [List.drop_drop]
      rw [hd11] at hl
      have hu := h.1.2 c hl
      simp [Char.isAlphanum, hu]

/-- Claim C10: on portfolio statements the label is exactly the sentinel
"Depot", the scanned identifier is retained (not cleared), and when present
it appears verbatim inside every filename built from the record. -/
theorem C10_depotauszug (currentYear : Nat) (text : List Char) (rec : PdfData)
    (hp : parse_pdf_data currentYear text = some rec)
    (hdt : rec.doc_type = str "Depotauszug") :
    rec.asset = str "Depot" ∧
    rec.isin = (scanIsinAsset text).map Prod.fst ∧
    ∀ s, rec.isin = some s → ∀ orig, ∃ out,
      build_filename rec orig = some out ∧ ∃ pre post, out = pre ++ s ++ post := by
  obtain ⟨d, _, _, _, hrec⟩ := parse_some_inv hp
  subst hrec
  obtain ⟨hisin, hasset⟩ := mkRecord_depotauszug d text hdt
  refine ⟨hasset, hisin, ?_⟩
  intro s hs orig
  obtain ⟨pr, hq, hpr⟩ : ∃ pr, scanIsinAsset text = some pr ∧ pr.1 = s := by
    rw [hisin] at hs
    rcases hq : scanIsinAsset text with _ | pr
    · rw [hq] at hs
      cases hs
    · rw [hq] at hs
      exact ⟨pr, rfl, Option.some.inj hs⟩
  have hvalid : isValidISIN s = true := by
    rw [← hpr]
    exact scanGo_valid (rustLines text) (rustLines text) 0 pr.1 pr.2
      (by rw [← hq]; rfl)
  obtain ⟨hlen, halnum⟩ := isValidISIN_shape hvalid
  have hbyte : byteLen s = 12 := by
    rw [byteLen_eq_length_of_unit (fun c hc =>
      utf8Size_of_le c (alnum_bounds c (halnum c hc)).2), hlen]
  have hcond : (byteLen s = 12 && s.all Char.isAlphanum) = true := by
    rw [hbyte]
    simp only [decide_eq_true_eq, Bool.and_eq_true, List.all_eq_true]
    exact ⟨by trivial, halnum⟩
  have hvi : validIsin (mkRecord d text).isin = some s := by
    rw [hs, validIsin_some, if_pos hcond]
  have hbf : build_filename (mkRecord d text) orig =
      some (assemble (fmtDate (mkRecord d text).date)
        (clean_name (replaceSpaceUnd (mkRecord d text).doc_type))
        (validIsin (mkRecord d text).isin) (str "Depot") (extOf orig)) := by
    simp only [build_filename, hasset]
    rw [show clean_name (str "Depot") = str "Depot" from by decide]
    rw [if_neg (by decide)]
    rfl
  have hne : (str "Depot" == s) = false := by
    apply beq_eq_false_iff_ne.mpr
    intro he
    rw [← he] at hlen
    exact absurd hlen (by decide)
  refine ⟨_, hbf, ?_⟩
  rw [hvi, assemble_some_full _ _ _ hne]
  exact ⟨fmtDate (mkRecord d text).date ++ '_' ::
      (clean_name (replaceSpaceUnd (mkRecord d text).doc_type) ++ ['_']),
    '_' :: (str "Depot" ++ '.' :: extOf orig),
    by simp⟩

/-- A closed instance of claim C10: a portfolio statement with a valid
identifier keeps it, gets the "Depot" label, and every built filename
contains the identifier. -/
theorem C10_depotauszug_witness :
    (⟨⟨2025, 11, 5⟩, str "Depotauszug", some (str "CNE1000007Z2"),
        str "Depot"⟩ : PdfData).asset = str "Depot" ∧
    (⟨⟨2025, 11, 5⟩, str "Depotauszug", some (str "CNE1000007Z2"),
        str "Depot"⟩ : PdfData).isin =
      (scanIsinAsset
        (str "Depotauszug\nDATUM 05.11.2025\nISIN CNE1000007Z2\n")).map Prod.fst ∧
    ∀ s, (⟨⟨2025, 11, 5⟩, str "Depotauszug", some (str "CNE1000007Z2"),
        str "Depot"⟩ : PdfData).isin = some s → ∀ orig, ∃ out,
      build_filename (⟨⟨2025, 11, 5⟩, str "Depotauszug",
          some (str "CNE1000007Z2"), str "Depot"⟩ : PdfData) orig = some out ∧
      ∃ pre post, out = pre ++ s ++ post :=
  C10_depotauszug 2025
    (str "Depotauszug\nDATUM 05.11.2025\nISIN CNE1000007Z2\n")
    ⟨⟨2025, 11, 5⟩, str "Depotauszug", some (str "CNE1000007Z2"), str "Depot"⟩
    (by decide) (by decide)
